import Mathlib

/-!
Verification development for the `formation-docs` documentation generator
(`src/docs.ts`).  The TypeScript source is shallowly embedded: each JS/TS
function that the claims touch is translated into an executable Lean
definition operating on explicit state (the JS module-level mutable
`renderType.ref` becomes an explicit `RenderType` argument, the JS `Set`s
become insertion-ordered `List`s, JS `Map`s become association lists, and
the `async`/`await` exception flow of file reads becomes an `Except`
monad).  Strings are treated as lists of characters with the ASCII
semantics of the JS regexes involved (`\w`, `\s`, `.` etc.), which covers
every input exercised here.
-/

namespace FormationDocs

/-! ## Basic character classes (JS regex semantics, ASCII fragment) -/

/-- JS `\w` character class: `[A-Za-z0-9_]`. -/
def isWordChar (c : Char) : Bool :=
  c.isAlpha || c.isDigit || c = '_'

/-- JS `\s` character class restricted to the ASCII whitespace actually
occurring in doc comments. -/
def isSpaceJs (c : Char) : Bool :=
  c = ' ' || c = '\t' || c = '\n' || c = '\r' || c = '\x0b' || c = '\x0c'

/-- A decimal digit character. -/
def digitChar (d : Nat) : Char := Char.ofNat (48 + d)

/-- Little-endian decimal digits with an explicit recursion budget (kept
structural so the kernel can evaluate it; `natDecGo_eq_digits` relates it
to `Nat.digits`, from which injectivity follows). -/
def natDecGo : Nat → Nat → List Char
  | 0, _ => []
  | _ + 1, 0 => []
  | fuel + 1, n + 1 => digitChar ((n + 1) % 10) :: natDecGo fuel ((n + 1) / 10)

/-- Decimal representation of a natural number, as produced by JS string
interpolation of a number (`` `${suffix}` ``). -/
def natDec (n : Nat) : String :=
  if n = 0 then "0" else ⟨(natDecGo (n + 1) n).reverse⟩

/-! ## `escape` (docs.ts line 1773): replace `&<>"'*` by HTML entities -/

/-- Entity replacement for a single character (the regex
`/[&<>"'*]/g` is per-character). -/
def escapeChar (c : Char) : List Char :=
  if c = '&' then "&amp;".data
  else if c = '<' then "&lt;".data
  else if c = '>' then "&gt;".data
  else if c = '"' then "&quot;".data
  else if c = '\x27' then "&#39;".data
  else if c = '*' then "&ast;".data
  else [c]

/-- `escape` from docs.ts. -/
def escape (s : String) : String :=
  ⟨s.data.flatMap escapeChar⟩

/-! ## `getId` (docs.ts line 1972): kebab-case slug of a name -/

/-- Split leading whitespace off (one direction of `String.prototype.trim`). -/
def dropLeadSpace (l : List Char) : List Char :=
  l.dropWhile isSpaceJs

/-- `name.trim()` on the character list. -/
def trimJs (l : List Char) : List Char :=
  (dropLeadSpace ((dropLeadSpace l.reverse).reverse))

/-- Collapse every maximal whitespace run to a single `-`
(the `/\s+/g → '-'` replacement); `inRun` records whether the previous
character was whitespace, so only the first character of a run emits the
dash. -/
def spaceRunsGo (inRun : Bool) : List Char → List Char
  | [] => []
  | c :: cs =>
    if isSpaceJs c then
      (if inRun then [] else ['-']) ++ spaceRunsGo true cs
    else c :: spaceRunsGo false cs

/-- Entry point of the whitespace-run replacement. -/
def spaceRunsToDash (l : List Char) : List Char :=
  spaceRunsGo false l

/-- `getId` from docs.ts: trim, drop `[^\w\s]|_`, whitespace runs to `-`,
lowercase. -/
def getId (name : String) : String :=
  ⟨(spaceRunsToDash
      ((trimJs name.data).filter (fun c => (isWordChar c || isSpaceJs c) && c ≠ '_'))).map
    Char.toLower⟩

/-! ## `normalizeTypes` (docs.ts line 1825)

`name.replace(/Array\.<(.+)>/, '$1[]').replace(/.</g, '<')`.

The first replacement is non-global: it rewrites the first position where
the literal `Array.<` occurs and a `>` follows on the same line (`.` does
not match a newline; `(.+)` is greedy, so the *last* `>` on that line
closes the match).  The second is global: every character other than a
newline that is immediately followed by `<` is deleted together with the
`<` and replaced by `<` (i.e. the preceding character is dropped). -/

/-- Greedy completion of `Array\.<(.+)>` after the literal `Array.<`:
the captured group is everything up to the last `>` on the current line,
and must be nonempty. -/
def greedyClose (rest : List Char) : Option (List Char × List Char) :=
  let line := rest.takeWhile (fun c => c ≠ '\n')
  match line.reverse.findIdx? (fun c => c = '>') with
  | some jr =>
    let j := line.length - 1 - jr
    if 1 ≤ j then some (rest.take j, rest.drop (j + 1)) else none
  | none => none

/-- The literal `Array.<`. -/
def arrayAngle : List Char := "Array.<".data

/-- First-occurrence replacement of `Array\.<(.+)>` by `$1[]`. -/
def replaceArrayOnce : List Char → List Char
  | [] => []
  | c :: cs =>
    if arrayAngle.isPrefixOf (c :: cs) then
      match greedyClose ((c :: cs).drop arrayAngle.length) with
      | some (x, r) => x ++ '['.toString.data ++ ']'.toString.data ++ r
      | none => c :: replaceArrayOnce cs
    else c :: replaceArrayOnce cs

/-- Global replacement `/.</g → '<'`: drop any non-newline character that
directly precedes a `<` (consuming the pair, scanning left to right). -/
def dotLt : List Char → List Char
  | [] => []
  | [c] => [c]
  | c :: d :: rest =>
    if d = '<' && c ≠ '\n' then '<' :: dotLt rest
    else c :: dotLt (d :: rest)

/-- The per-name flattening applied by `normalizeTypes`. -/
def flattenType (s : String) : String :=
  ⟨dotLt (replaceArrayOnce s.data)⟩

/-- `normalizeTypes` from docs.ts. -/
def normalizeTypes (types : List String) : List String :=
  types.map flattenType

/-! ## `normalizeParams` (docs.ts line 1838) -/

/-- A JS primitive value as it can appear in a raw `defaultvalue` field. -/
inductive JsValue where
  | str (s : String)
  | num (n : Int)
  | bool (b : Bool)
  | null
deriving DecidableEq, Repr

/-- JS `String(value)` on the values above. -/
def JsValue.toStringJs : JsValue → String
  | .str s => s
  | .num n => toString n
  | .bool b => cond b "true" "false"
  | .null => "null"

/-- A raw JSDoc param/property record as consumed by `normalizeParams`
(`DocsJsDocType`): `name`, `type.names`, optional `description`,
`optional`, `defaultvalue`. -/
structure RawParam where
  name : String
  typeNames : List String
  description : Option String
  optional : Option Bool
  defaultvalue : Option JsValue
deriving DecidableEq, Repr

/-- A normalized param/property (`DocsType`-shaped entry). -/
structure Param where
  name : String
  type : List String
  description : Option String := none
  optional : Bool := false
  defaults : Option String := none
deriving DecidableEq, Repr

/-- JS truthiness of an optional string (`undefined` and `''` are falsy). -/
def optTruthy : Option String → Bool
  | some s => s ≠ ""
  | none => false

/-- `normalizeParams` from docs.ts: flatten the type names, copy the
description when truthy, copy the optional flag when truthy, and record
`defaults := String(defaultvalue)` exactly when `defaultvalue` is not
`undefined` (so falsy defaults such as `0`, `false`, `''` are kept). -/
def normalizeParams (params : List RawParam) : List Param :=
  params.map fun param =>
    { name := param.name
      type := normalizeTypes param.typeNames
      description := if optTruthy param.description then param.description else none
      optional := param.optional = some true
      defaults := param.defaultvalue.map JsValue.toStringJs }

/-! ## Content nodes (`DocsContent`)

A content node `{ content, tag?, link? }` where `content` is either a
plain string or a nested array of nodes. -/

inductive Content where
  | str (tag link : Option String) (s : String)
  | arr (tag link : Option String) (children : List Content)
deriving Repr

mutual

/-- Decidable equality for content nodes (hand-rolled because the nested
`List Content` defeats the deriving handler). -/
def decEqContent : (a b : Content) → Decidable (a = b)
  | Content.str t1 l1 s1, Content.str t2 l2 s2 =>
    match decEq t1 t2, decEq l1 l2, decEq s1 s2 with
    | isTrue h1, isTrue h2, isTrue h3 => isTrue (by rw [h1, h2, h3])
    | isFalse h1, _, _ => isFalse (by intro h; injection h; contradiction)
    | _, isFalse h2, _ => isFalse (by intro h; injection h; contradiction)
    | _, _, isFalse h3 => isFalse (by intro h; injection h; contradiction)
  | Content.str t1 l1 s1, Content.arr t2 l2 c2 => isFalse (fun h => Content.noConfusion h)
  | Content.arr t1 l1 c1, Content.str t2 l2 s2 => isFalse (fun h => Content.noConfusion h)
  | Content.arr t1 l1 c1, Content.arr t2 l2 c2 =>
    match decEq t1 t2, decEq l1 l2, decEqContentList c1 c2 with
    | isTrue h1, isTrue h2, isTrue h3 => isTrue (by rw [h1, h2, h3])
    | isFalse h1, _, _ => isFalse (by intro h; injection h; contradiction)
    | _, isFalse h2, _ => isFalse (by intro h; injection h; contradiction)
    | _, _, isFalse h3 => isFalse (by intro h; injection h; contradiction)

/-- Decidable equality for content-node lists. -/
def decEqContentList : (a b : List Content) → Decidable (a = b)
  | [], [] => isTrue rfl
  | [], _ :: _ => isFalse (fun h => List.noConfusion h)
  | _ :: _, [] => isFalse (fun h => List.noConfusion h)
  | a :: as, b :: bs =>
    match decEqContent a b, decEqContentList as bs with
    | isTrue h1, isTrue h2 => isTrue (by rw [h1, h2])
    | isFalse h1, _ => isFalse (by intro h; injection h; contradiction)
    | _, isFalse h2 => isFalse (by intro h; injection h; contradiction)

end

instance : DecidableEq Content := decEqContent

/-- Render type, the module-level mutable `renderType.ref` of docs.ts made
into an explicit argument. -/
inductive RenderType where
  | markdown
  | html
deriving DecidableEq, Repr

/-- Entity kind tag (`'typedef' | 'function' | 'class'`). -/
inductive Kind where
  | typedef
  | function
  | cls
deriving DecidableEq, Repr

/-- A return/yield descriptor (`DocsReturn`). -/
structure Ret where
  type : List String
  description : Option String := none
deriving DecidableEq, Repr

/-- The non-recursive fields shared by `DocsType`/`DocsFunction`/`DocsClass`.
JS fields that are absent on some shapes are `Option`s here; the JS `type`
field is a `string[]` on types/classes and a type-alias name (`string`) on
functions built from a `@typedef {function}` reference, so it is split into
`type` (the array form) and `typeRef` (the alias-name form). -/
structure EntityData where
  name : String := ""
  id : String := ""
  type : List String := []
  typeRef : Option String := none
  dir : Option String := none
  outDir : Option String := none
  description : Option String := none
  desc : Option String := none
  props : Option (List Param) := none
  params : Option (List Param) := none
  returns : Option Ret := none
  yields : Option Ret := none
  augments : Option (List String) := none
  examples : Option (List String) := none
deriving Repr

/-- A canonical entity; class entities carry a member list
(member entities themselves have empty member lists in practice). -/
inductive Entity where
  | mk (data : EntityData) (members : List Entity)
deriving Repr

/-- Field projection. -/
def Entity.data : Entity → EntityData
  | .mk d _ => d

/-- Member-list projection. -/
def Entity.members : Entity → List Entity
  | .mk _ m => m

theorem Entity.sizeOf_pos (e : Entity) : 0 < sizeOf e := by
  cases e with
  | mk d m =>
    simp only [Entity.mk.sizeOf_spec]
    omega

theorem Entity.sizeOf_members_lt (e : Entity) : sizeOf e.members < sizeOf e := by
  cases e with
  | mk d m =>
    simp only [Entity.members, Entity.mk.sizeOf_spec]
    omega

/-- The registries are JS `Map`s with unique keys; association-list lookup. -/
def lookupType (m : List (String × Entity)) (k : String) : Option Entity :=
  (m.find? (fun p => p.1 = k)).map (fun p => p.2)

/-! ## Example normalization (`normalizeExamples`, docs.ts line 1893) -/

/-- Markdown symbol per tag (`tagToSymbol`, docs.ts line 1737). -/
def tagToSymbol (tag : String) : String :=
  if tag = "h1" then "# "
  else if tag = "h2" then "\n\n## "
  else if tag = "h3" then "\n\n### "
  else if tag = "h4" then "\n\n#### "
  else if tag = "h5" then "\n\n##### "
  else if tag = "h6" then "\n\n###### "
  else if tag = "strong" then "**"
  else if tag = "code" then "`"
  else if tag = "li" then "  \n- "
  else if tag = "hr" then "\n***"
  else if tag = "p" then "  \n"
  else ""

/-- `.replace('\n', '')`: drop the first newline. -/
def stripFirstNl : List Char → List Char
  | [] => []
  | c :: cs => if c = '\n' then cs else c :: stripFirstNl cs

/-- JS `String.prototype.startsWith`, modeled on the character list (equal
to the byte-level prefix test of core `String.startsWith`). -/
def strStarts (s pre : String) : Bool := pre.data.isPrefixOf s.data

/-- Match the optional group `(?:label\s*(.+?)\n)?` of the example regex at
the start of `l`.  Backtracking order of the JS engine: the greedy `\s*`
tries the longest whitespace run first; for a fixed run, the lazy `(.+?)`
stops at the first following newline.  Returns the captured group and the
rest of the input, or `none` when the group cannot match (the group is then
skipped). -/
def parseLabeled (label : List Char) (l : List Char) : Option (String × List Char) :=
  if label.isPrefixOf l then
    let t := l.drop label.length
    let wsMax := (t.takeWhile isSpaceJs).length
    (List.range (wsMax + 1)).reverse.findSome? fun w =>
      let rest := t.drop w
      match rest.head? with
      | none => none
      | some c =>
        if c = '\n' then none
        else
          let x := rest.takeWhile (fun ch => ch ≠ '\n')
          match rest.drop x.length with
          | '\n' :: r2 => some (⟨x⟩, r2)
          | _ => none
  else none

/-- Match the optional group `(?:(shell|json|javascript|typescript|js|ts):\s*)?`:
alternatives are tried in source order; on success the greedy `\s*`
consumes following whitespace (the tail group `([\s\S]*)` always matches,
so no backtracking happens here). -/
def parseLang (l : List Char) : Option (String × List Char) :=
  ["shell", "json", "javascript", "typescript", "js", "ts"].findSome? fun lg =>
    let pat := lg.data ++ [':']
    if pat.isPrefixOf l then some (lg, (l.drop pat.length).dropWhile isSpaceJs)
    else none

/-- Decompose one example string by the regex of docs.ts line 1903 into
`(title?, desc?, lang?, code)`. -/
def parseExample (ex : String) : Option String × Option String × Option String × String :=
  let l := ex.data
  let (title, l1) :=
    match parseLabeled "title:".data l with
    | some (t, r) => (some t, r)
    | none => (none, l)
  let (desc, l2) :=
    match parseLabeled "desc:".data l1 with
    | some (t, r) => (some t, r)
    | none => (none, l1)
  let (lang, l3) :=
    match parseLang l2 with
    | some (t, r) => (some t, r)
    | none => (none, l2)
  (title, desc, lang, ⟨l3⟩)

/-- Error outcomes of the embedded async pipeline: `RErr.file` models a
rejected `readFile` promise (no catch anywhere in docs.ts, so it
propagates), `RErr.fuel` models exceeding the recursion budget of the
resolver embedding (proved unreachable for sufficient fuel below). -/
inductive RErr where
  | fuel
  | file
deriving DecidableEq, Repr

/-- Loop body of `normalizeExamples`: returns the accumulated
`(newExamples, newContent)` pair.  `fs dir path` models
`readFile(resolve(dir, path))`, `hl lang code` models `codeToHtml`. -/
def normExLoop (fs : String → String → Option String) (hl : String → String → String)
    (isHtml : Bool) (dir tag : String) :
    List String → Except RErr (List String × List Content)
  | [] => .ok ([], [])
  | ex :: rest => do
    let (title, desc, lang, code0) := parseExample ex
    let code ←
      if strStarts code0 "." then
        match fs dir code0 with
        | some t => Except.ok t
        | none => Except.error RErr.file
      else Except.ok code0
    let exTitle := if optTruthy title then
        (⟨stripFirstNl (tagToSymbol tag).data⟩ : String) ++ title.getD "" ++ "\n" else ""
    let ctTitle : List Content :=
      if optTruthy title then [Content.str (some tag) none (title.getD "")] else []
    let exDesc := if optTruthy desc then "\n" ++ desc.getD "" ++ "\n" else ""
    let ctDesc : List Content :=
      if optTruthy desc then [Content.str (some "p") none (desc.getD "")] else []
    let hasCode := optTruthy lang && code ≠ ""
    let exCode := if hasCode then "\n" ++ "```" ++ lang.getD "" ++ "\n" ++ code ++ "\n" ++ "```" else ""
    let ctCode : List Content :=
      if hasCode && isHtml then [Content.str none none (hl (lang.getD "") code)] else []
    let newExample := exTitle ++ exDesc ++ exCode
    let (exs, cts) ← normExLoop fs hl isHtml dir tag rest
    let exs1 := if newExample = "" then exs else newExample :: exs
    .ok (exs1, ctTitle ++ ctDesc ++ ctCode ++ cts)

/-- `normalizeExamples` from docs.ts.  The HTML path returns the content
list when nonempty and `''` otherwise; the Markdown path returns the joined
string (prefixed by a newline) when nonempty and `''` otherwise. -/
def normalizeExamplesF (fs : String → String → Option String) (hl : String → String → String)
    (rt : RenderType) (examples : List String) (dir tag : String) :
    Except RErr ((List Content) ⊕ String) := do
  let isHtml := rt = RenderType.html
  let (newExamples, newContent) ← normExLoop fs hl isHtml dir tag examples
  if isHtml then
    .ok (if newContent.isEmpty then Sum.inr "" else Sum.inl newContent)
  else
    .ok (Sum.inr (if newExamples.isEmpty then "" else "\n" ++ String.intercalate "\n" newExamples))

/-! ## Type reference resolver (`getContent`/`getTypeContent`, docs.ts 1993/2088)

The two JS functions recurse through the registry: a reference to a
not-yet-used type materializes that type's own content, which may resolve
further references.  In JS, termination rests on the `usedTypes` set, which
grows inside the finite set of registered entity names.  The embedding
makes the recursion depth explicit with a `fuel` argument decremented at
exactly the materialization edge (the only non-structural call); the
theorem for C2 shows the `RErr.fuel` branch is unreachable whenever `fuel`
exceeds the number of registered-but-unused entity names, which is the
termination argument of the JS original.

JS object identity (`docType === currentDocType`, docs.ts 2054) coincides
with registry-key equality because the registry maps each key to a single
object; `selfKey` carries the registry key of the entity currently being
rendered (`none` for entities that are not registry values, e.g. plain
functions and class members, whose objects are never identical to a
registry value). -/

/-- `` `h${n}` ``. -/
def hTag (n : Nat) : String := "h" ++ natDec n

/-- The keywords excluded from reference candidacy by the negative
lookahead of docs.ts line 2005. -/
def refBlacklist : List String :=
  ["Promise", "Object", "Array", "Map", "Set", "Function", "function",
   "string", "number", "boolean", "void", "null", "undefined"]

/-- Grouping pass for the maximal `\w+` runs of a character list:
`acc` is the reversed current run. -/
def wordRunsGo (acc : List Char) : List Char → List (List Char)
  | [] => if acc.isEmpty then [] else [acc.reverse]
  | c :: cs =>
    if isWordChar c then wordRunsGo (c :: acc) cs
    else (if acc.isEmpty then [] else [acc.reverse]) ++ wordRunsGo [] cs

/-- Maximal `\w+` runs of a character list. -/
def wordRuns (l : List Char) : List (List Char) :=
  wordRunsGo [] l

/-- The reference-candidate matches of
`/\b(?!(?:Promise|…|undefined))\w+\b/g`: every maximal word run whose text
does not *begin with* one of the blacklist keywords (the lookahead has no
closing `\b`, so e.g. `Settings` is excluded because it starts with `Set`;
since the keywords consist of word characters only, testing the lookahead
against the remaining input is the same as testing it against the run). -/
def typeMatches (s : String) : List String :=
  (wordRuns s.data).filterMap fun r =>
    if refBlacklist.any (fun b => b.data.isPrefixOf r) then none else some ⟨r⟩

/-- Turn one maximal word run into its token (if any): the regex
alternative `([A-Za-z]|\d)\w*` starts matching at the first
letter-or-digit, so leading underscores are skipped; a run of only
underscores yields no token. -/
def runToken (r : List Char) : List String :=
  match r.dropWhile (fun c => c = '_') with
  | [] => []
  | r1 => [⟨r1⟩]

/-- The token stream of `/(\W)|([A-Za-z]|\d)\w*/g` with `filter(Boolean)`:
each non-word character is its own token; each maximal word run
contributes the part from its first letter-or-digit on. -/
def allTokensGo (acc : List Char) : List Char → List String
  | [] => runToken acc.reverse
  | c :: cs =>
    if isWordChar c then allTokensGo (c :: acc) cs
    else runToken acc.reverse ++ (⟨[c]⟩ : String) :: allTokensGo [] cs

/-- Entry point of the tokenizer. -/
def allTokens (l : List Char) : List String :=
  allTokensGo [] l

/-- The link target computed for a resolved reference
(docs.ts lines 2042–2046): a same-page anchor unless the entity has a
truthy owning directory different from the current one, in which case a
cross-file URL `{url}/{outDir ∥ dir}/{README.md | ""}#{id}` is built,
with the page token depending on the render type. -/
def refLink (rt : RenderType) (url dir : String) (dt : EntityData) : String :=
  if optTruthy dt.dir && dt.dir ≠ some dir then
    url ++ "/" ++ (if optTruthy dt.outDir then dt.outDir.getD "" else dt.dir.getD "") ++ "/"
      ++ (if rt = RenderType.markdown then "README.md" else "") ++ "#" ++ dt.id
  else "#" ++ dt.id

/-- Shared read-only context of a unit render: the `docTypes` registry, the
unit directory, the base url, the render type, the filesystem and the
syntax highlighter. -/
structure Ctx where
  docTypes : List (String × Entity)
  dir : String
  url : String
  rt : RenderType
  fs : String → String → Option String
  hl : String → String → String

/-- Function-as-typedef merge (docs.ts 2107–2115):
`{ ...funcType, ...newInfo }` where the function object built by `getInfo`
has exactly the keys `name`, `description`, `examples`, `type` — these
overwrite the alias's fields (even when `undefined`), everything else
comes from the alias.  (The merged JS `type` key holds the alias name
string; it is only read on the `typedef` path, which a function never
takes, so the array-form `type` is left at the alias's value here.) -/
def mergeFnAlias (als own : EntityData) : EntityData :=
  { als with
    name := own.name
    description := own.description
    examples := own.examples
    typeRef := own.typeRef }

/-- Plain text node `{ content: s }`. -/
def txt (s : String) : Content := Content.str none none s

/-- Tagged string node `{ tag, content: s }`. -/
def tnode (tag s : String) : Content := Content.str (some tag) none s

/-- Tagged array node `{ tag, content: [...] }`. -/
def wrap (tag : String) (cs : List Content) : Content := Content.arr (some tag) none cs

/-- The effective info object after the function-as-typedef merge
(docs.ts 2104–2115). -/
def effInfo (ctx : Ctx) (info : Entity) (kind : Kind) : EntityData :=
  if kind = Kind.function then
    match lookupType ctx.docTypes ((info.data.typeRef).getD "") with
    | some funcType => mergeFnAlias funcType.data info.data
    | none => info.data
  else info.data

/-- The signature paragraph of a function or class
(docs.ts 2154–2190): `name(param: Type, ...): ReturnType`, the
constructor form prefixed by `new ` with the class name as return. -/
def sigNode (newInfo : EntityData) (isClass : Bool) : Content :=
  let paramsList := ((newInfo.params).getD []).map fun p =>
    p.name ++ (if p.optional then "?" else "") ++ ": " ++ String.intercalate " | " p.type
  let returnsList := ((newInfo.returns).map Ret.type).getD []
  wrap "p" [wrap "strong" [wrap "code"
    [txt ((if isClass then "new " else "") ++ newInfo.name ++ "("
      ++ escape (String.intercalate ", " paramsList) ++ "): "
      ++ (if isClass then newInfo.name
          else escape (String.intercalate " | " returnsList)))]]]

/-- The pure prefix of a section (docs.ts 2135–2204): heading, class
description and `Constructor` sub-heading, signature, description. -/
def sectionPre (newInfo : EntityData) (kind : Kind) (depth : Nat) : List Content :=
  let isClass := kind = Kind.cls
  let isFunction := kind = Kind.function
  [tnode (hTag (depth + 1)) newInfo.name]
    ++ (if isClass then
          (if optTruthy newInfo.description then [tnode "p" (newInfo.description.getD "")] else [])
            ++ [tnode (hTag (depth + 2)) "Constructor"]
        else [])
    ++ (if isFunction || isClass then [sigNode newInfo isClass] else [])
    ++ (if isClass && optTruthy newInfo.desc then [tnode "p" (newInfo.desc.getD "")] else [])
    ++ (if !isClass && optTruthy newInfo.description then
          [tnode "p" (newInfo.description.getD "")] else [])

/-- A `Type:`/`Augments:` paragraph (docs.ts 2209–2243). -/
def labeledCode (label : String) (tc : List Content) : Content :=
  wrap "p" [tnode "strong" label, txt " ", Content.arr (some "code") none tc]

/-- One property/parameter entry (docs.ts 2263–2333): the term (name,
resolved type, required/optional), the details (description, default),
wrapped in `dt`/`dd` inside a `div` on the HTML path and flattened inside
an `li` on the Markdown path. -/
def fieldEntry (isHtml : Bool) (f : Param) (tc : List Content) : Content :=
  let term : List Content :=
    [wrap "strong" [tnode "code" f.name], txt " ", Content.arr (some "code") none tc,
     txt " ", txt (if f.optional then "optional" else "required")]
  let details : List Content :=
    (if optTruthy f.description then [tnode "p" (f.description.getD "")] else [])
      ++ (if optTruthy f.defaults then
            [wrap "p" [txt "Default: ", tnode "code" (f.defaults.getD "")]] else [])
  wrap (if isHtml then "div" else "li")
    ((if isHtml then [wrap "dt" term] else term)
      ++ (if isHtml then [wrap "dd" details] else details))

/-- A `Properties`/`Parameters` section (docs.ts 2246–2252, 2342–2348). -/
def fieldsSection (title htag : String) (isHtml : Bool) (plist : List Content) : List Content :=
  [tnode htag title, Content.arr (some (if isHtml then "dl" else "ul")) none plist]

/-- A `Returns`/`Yields` section (docs.ts 2438–2496). -/
def retSection (title htag : String) (r : Ret) (rc : List Content) : List Content :=
  [tnode htag title,
   wrap "p" ([Content.arr (some "code") none rc]
     ++ (if optTruthy r.description then [txt " ", txt (r.description.getD "")] else []))]

/-- The `Examples` block (docs.ts 2546–2553). -/
def examplesSection (htag : String) (exContent : (List Content) ⊕ String) : List Content :=
  [tnode htag "Examples",
   match exContent with
   | Sum.inl l => Content.arr none none l
   | Sum.inr str => txt str]

/-- The group headings emitted before a class member (docs.ts 2499–2522). -/
def memberTitles (hasP hasM memberIsFunction : Bool) (depth : Nat) : List Content :=
  (if !hasP && !memberIsFunction then [tnode (hTag (depth + 2)) "Properties"] else [])
    ++ (if !hasM && memberIsFunction then [tnode (hTag (depth + 2)) "Methods"] else [])

/-- Result type of the resolver functions:
`(content, typesDelta, usedTypes)`. -/
abbrev RRes := Except RErr (List Content × List Content × List String)

/-- The materialization callback: `getContent`'s recursive call
`getTypeContent(docType, 'typedef', …, 2)` (docs.ts 2060) abstracted so
the list loops below are plain structural recursions; `gtcF` ties the
knot, checking the recursion budget here. -/
abbrev Mat := Entity → String → List String → RRes

/-- `getContent`'s inner token loop (docs.ts 2020–2062): emit escaped text
for non-reference tokens, a link node for each registered reference, and
materialize a referenced entity's content into the unit's `types`
accumulator the first time its name enters `used`. -/
def gctP (ctx : Ctx) (mat : Mat) (selfKey : Option String) (tM : List String) :
    List String → List String → RRes
  | [], used => .ok ([], [], used)
  | tok :: rest, used =>
    if tok ∈ tM then
      match lookupType ctx.docTypes tok with
      | none => do
        let (cs, d, u) ← gctP ctx mat selfKey tM rest used
        .ok (txt (escape tok) :: cs, d, u)
      | some dt =>
        let anode := Content.str (some "a") (some (refLink ctx.rt ctx.url ctx.dir dt.data)) dt.data.name
        if selfKey = some tok then do
          let (cs, d, u) ← gctP ctx mat selfKey tM rest used
          .ok (anode :: cs, d, u)
        else if dt.data.name ∈ used then do
          let (cs, d, u) ← gctP ctx mat selfKey tM rest used
          .ok (anode :: cs, d, u)
        else do
          let (sec, d1, u1) ← mat dt tok (used ++ [dt.data.name])
          let (cs, d2, u2) ← gctP ctx mat selfKey tM rest u1
          .ok (anode :: cs, d1 ++ sec ++ d2, u2)
    else do
      let (cs, d, u) ← gctP ctx mat selfKey tM rest used
      .ok (txt (escape tok) :: cs, d, u)

/-- `getContent`'s outer loop over the type-name strings
(docs.ts 2003–2071), with the `' | '` separator inserted before every
entry except the first.  `acc` is the `_content` accumulator. -/
def gcnP (ctx : Ctx) (mat : Mat) (selfKey : Option String) :
    List String → List String → List Content → RRes
  | [], used, acc => .ok (acc, [], used)
  | nm :: rest, used, acc =>
    let tM := typeMatches nm
    if tM.isEmpty then
      gcnP ctx mat selfKey rest used
        ((if acc.isEmpty then acc else acc ++ [txt " | "]) ++ [txt (escape nm)])
    else do
      let (cs, d1, u1) ← gctP ctx mat selfKey tM (allTokens nm.data) used
      let (res, d2, u2) ← gcnP ctx mat selfKey rest u1
        ((if acc.isEmpty then acc else acc ++ [txt " | "]) ++ [Content.arr none none cs])
      .ok (res, d1 ++ d2, u2)

/-- The props/params rendering loop of `getTypeContent`
(docs.ts 2254–2334 and the structurally identical 2350–2430). -/
def gFieldsP (ctx : Ctx) (mat : Mat) (selfKey : Option String) (isHtml : Bool) :
    List Param → List String → RRes
  | [], used => .ok ([], [], used)
  | f :: rest, used => do
    let (tc, d1, u1) ← gcnP ctx mat selfKey f.type used []
    let (csRest, d2, u2) ← gFieldsP ctx mat selfKey isHtml rest u1
    .ok (fieldEntry isHtml f tc :: csRest, d1 ++ d2, u2)

/-- The `Type:` step of `getTypeContent` (docs.ts 2206–2225), taken on
the `typedef` path. -/
def secType (ctx : Ctx) (mat : Mat) (selfKey : Option String) (isTy : Bool)
    (tys : List String) (used : List String) : RRes :=
  if isTy then do
    let (tc, d, u) ← gcnP ctx mat selfKey tys used []
    .ok ([labeledCode "Type:" tc], d, u)
  else .ok ([], [], used)

/-- The `Augments:` step (docs.ts 2227–2244), taken when the field is
present (JS truthiness: even an empty array is truthy). -/
def secAug (ctx : Ctx) (mat : Mat) (selfKey : Option String) (aug : Option (List String))
    (used : List String) : RRes :=
  if aug.isSome then do
    let (ac, d, u) ← gcnP ctx mat selfKey (aug.getD []) used []
    .ok ([labeledCode "Augments:" ac], d, u)
  else .ok ([], [], used)

/-- The `Properties`/`Parameters` step (docs.ts 2246–2340, 2342–2436),
taken when the optional field list is nonempty (`props?.length`). -/
def secFields (ctx : Ctx) (mat : Mat) (selfKey : Option String) (title htag : String)
    (isHtml : Bool) (fields : Option (List Param)) (used : List String) : RRes :=
  if (fields.getD []).length ≠ 0 then do
    let (plist, d, u) ← gFieldsP ctx mat selfKey isHtml (fields.getD []) used
    .ok (fieldsSection title htag isHtml plist, d, u)
  else .ok ([], [], used)

/-- The `Returns`/`Yields` step (docs.ts 2438–2496). -/
def secRet (ctx : Ctx) (mat : Mat) (selfKey : Option String) (title htag : String)
    (r : Option Ret) (used : List String) : RRes :=
  match r with
  | some r => do
    let (rc, d, u) ← gcnP ctx mat selfKey r.type used []
    .ok (retSection title htag r rc, d, u)
  | none => .ok ([], [], used)

/-- The body of `getTypeContent` (docs.ts 2088–2557) with the two
recursive edges abstracted: `mat` performs the materialization recursion
(through `getContent`), `memb` renders this entity's member list (only
invoked on the class path).  `newInfo` is the already-merged data object.
The section order is the fixed order of the source: heading, class
description/constructor, signature, descriptions, `Type:`, `Augments:`,
properties, parameters, returns, yields, members, examples; a typedef
whose owning directory is not the current one yields no content at all
(docs.ts 2131). -/
def gtcBody (ctx : Ctx) (mat : Mat) (memb : List String → RRes) (selfKey : Option String)
    (newInfo : EntityData) (kind : Kind) (depth : Nat) (used : List String) : RRes :=
  let isClass := kind = Kind.cls
  let isHtml := ctx.rt = RenderType.html
  if kind = Kind.typedef ∧ newInfo.dir ≠ some ctx.dir then .ok ([], [], used)
  else do
    let (cType, dT, uT) ← secType ctx mat selfKey (kind = Kind.typedef) newInfo.type used
    let (cAug, dA, uA) ← secAug ctx mat selfKey newInfo.augments uT
    let (cProps, dP, uP) ← secFields ctx mat selfKey "Properties" (hTag (depth + 2)) isHtml newInfo.props uA
    let (cParams, dPa, uPa) ← secFields ctx mat selfKey "Parameters"
      (hTag (depth + (if isClass then 3 else 2))) isHtml newInfo.params uP
    let (cRet, dR, uR) ← secRet ctx mat selfKey "Returns" (hTag (depth + 2)) newInfo.returns uPa
    let (cYld, dY, uY) ← secRet ctx mat selfKey "Yields" (hTag (depth + 2)) newInfo.yields uR
    let (cMem, dM, uM) ← if isClass then memb uY else Except.ok (([] : List Content), ([] : List Content), uY)
    let pre := sectionPre newInfo kind depth
      ++ cType ++ cAug ++ cProps ++ cParams ++ cRet ++ cYld ++ cMem
    let delta := dT ++ dA ++ dP ++ dPa ++ dR ++ dY ++ dM
    match newInfo.examples with
    | some exs => do
      let exContent ← normalizeExamplesF ctx.fs ctx.hl ctx.rt exs ctx.dir (hTag (depth + 3))
      if exContent = Sum.inr "" then .ok (pre, delta, uM)
      else .ok (pre ++ examplesSection (hTag (depth + 2)) exContent, delta, uM)
    | none => .ok (pre, delta, uM)

mutual

/-- `getTypeContent` (docs.ts 2088–2557): `gtcBody` with the recursion
tied: the materializer recurses at `fuel - 1` (returning `RErr.fuel` when
the budget is exhausted — unreachable for sufficient fuel, the
formalization of the JS termination argument), the member renderer walks
this entity's members at the same budget. -/
def gtcF (fuel : Nat) (ctx : Ctx) (selfKey : Option String) (info : Entity) (kind : Kind)
    (depth : Nat) (used : List String) : RRes :=
  gtcBody ctx
    (match fuel with
     | 0 => fun _ _ _ => .error RErr.fuel
     | f + 1 => fun dt tok u1 => gtcF f ctx (some tok) dt Kind.typedef 2 u1)
    (fun u =>
      have hm : sizeOf info.members < sizeOf info := Entity.sizeOf_members_lt info
      gMembersF fuel ctx depth info.members false false u)
    selfKey (effInfo ctx info kind) kind depth used
termination_by (fuel, sizeOf info, 1)

/-- The class member loop (docs.ts 2498–2537). -/
def gMembersF (fuel : Nat) (ctx : Ctx) (depth : Nat) :
    List Entity → Bool → Bool → List String → RRes
  | [], _, _, used => .ok ([], [], used)
  | m :: rest, hasP, hasM, used => do
    let memberIsFunction := (m.data.params).isSome
    let (sec, d1, u1) ← gtcF fuel ctx none m
      (if memberIsFunction then Kind.function else Kind.typedef) (depth + 2) used
    let (csRest, d2, u2) ← gMembersF fuel ctx depth rest
      (hasP || !memberIsFunction) (hasM || memberIsFunction) u1
    .ok (memberTitles hasP hasM memberIsFunction depth ++ sec ++ csRest, d1 ++ d2, u2)
termination_by members hasP hasM used => (fuel, sizeOf members, 0)

end

/-! ## `markdownToHtml` (docs.ts line 1806): the four global regex passes -/

/-- Lazy/greedy body scan shared by the replacement passes: find the
earliest split `l = x ++ dr ++ r` whose body `x` consists of characters
satisfying `p`, returning `(x, r)`. -/
def scanBody (dr : List Char) (p : Char → Bool) : List Char → Option (List Char × List Char)
  | [] => none
  | c :: cs =>
    if dr.isPrefixOf (c :: cs) then some ([], (c :: cs).drop dr.length)
    else if p c then
      match scanBody dr p cs with
      | some (x, r) => some (c :: x, r)
      | none => none
    else none

theorem scanBody_length {dr : List Char} {p : Char → Bool} :
    ∀ {l x r}, scanBody dr p l = some (x, r) → dr ≠ [] → r.length < l.length := by
  intro l
  induction l with
  | nil => intro x r h _; simp [scanBody] at h
  | cons c cs ih =>
    intro x r h hdr
    rw [scanBody] at h
    by_cases hp : dr.isPrefixOf (c :: cs)
    · simp only [hp, if_true] at h
      cases h
      have h1 : 1 ≤ dr.length := by
        cases dr with
        | nil => exact absurd rfl hdr
        | cons _ _ => simp
      simp only [List.length_drop, List.length_cons]
      omega
    · simp only [hp, if_false] at h
      by_cases hpc : p c
      · simp only [hpc, if_true] at h
        cases hsb : scanBody dr p cs with
        | none => rw [hsb] at h; simp at h
        | some pr =>
          rw [hsb] at h
          simp only [Option.some.injEq] at h
          cases pr with
          | mk x1 r1 =>
            cases h
            have := ih hsb hdr
            simp only [List.length_cons]
            omega
      · simp [hpc] at h

/-- One global pass of `dl(body)dr → rp body`: at each position, if the
opening delimiter matches and a body closed by `dr` follows, emit the
replacement and continue after the match; otherwise keep the character.
`minOne` requires a nonempty body (the `+` quantifier).  `fuel` only bounds
the recursion depth; every step consumes at least one character, so the
wrapper's `l.length + 1` can never run out. -/
def replaceWrappedGo (dl dr : List Char) (p : Char → Bool) (minOne : Bool)
    (rp : List Char → List Char) : Nat → List Char → List Char
  | 0, l => l
  | _ + 1, [] => []
  | fuel + 1, c :: cs =>
    if dl.isPrefixOf (c :: cs) then
      match scanBody dr p ((c :: cs).drop dl.length) with
      | some (x, r) =>
        if minOne && x.isEmpty then c :: replaceWrappedGo dl dr p minOne rp fuel cs
        else rp x ++ replaceWrappedGo dl dr p minOne rp fuel r
      | none => c :: replaceWrappedGo dl dr p minOne rp fuel cs
    else c :: replaceWrappedGo dl dr p minOne rp fuel cs

/-- Entry point of a replacement pass. -/
def replaceWrapped (dl dr : List Char) (p : Char → Bool) (minOne : Bool)
    (rp : List Char → List Char) (l : List Char) : List Char :=
  replaceWrappedGo dl dr p minOne rp (l.length + 1) l

/-- The link pass `\[([^\]]+)\]\(([^)]+)\)` → `<a href="$2">$1</a>`
(same fuel convention as `replaceWrappedGo`). -/
def replaceLinkGo : Nat → List Char → List Char
  | 0, l => l
  | _ + 1, [] => []
  | fuel + 1, c :: cs =>
    if c = '[' then
      match scanBody [']'] (fun ch => ch ≠ ']') cs with
      | some (txt, r1) =>
        if txt.isEmpty then c :: replaceLinkGo fuel cs
        else
          match r1 with
          | '(' :: r2 =>
            match scanBody [')'] (fun ch => ch ≠ ')') r2 with
            | some (href, r3) =>
              if href.isEmpty then c :: replaceLinkGo fuel cs
              else "<a href=\"".data ++ href ++ "\">".data ++ txt ++ "</a>".data ++ replaceLinkGo fuel r3
            | none => c :: replaceLinkGo fuel cs
          | _ => c :: replaceLinkGo fuel cs
      | none => c :: replaceLinkGo fuel cs
    else c :: replaceLinkGo fuel cs

/-- Entry point of the link pass. -/
def replaceLinkMd (l : List Char) : List Char :=
  replaceLinkGo (l.length + 1) l

/-- `markdownToHtml` from docs.ts: bold, then italic, then inline code,
then links. -/
def markdownToHtml (s : String) : String :=
  ⟨replaceLinkMd
    (replaceWrapped "`".data "`".data (fun ch => ch ≠ '`') true
      (fun x => "<code>".data ++ x ++ "</code>".data)
      (replaceWrapped "*".data "*".data (fun ch => ch ≠ '\n') false
        (fun x => "<em>".data ++ x ++ "</em>".data)
        (replaceWrapped "**".data "**".data (fun ch => ch ≠ '\n') false
          (fun x => "<strong>".data ++ x ++ "</strong>".data) s.data)))⟩

/-! ## HTML walker (`getHtml`, docs.ts line 2770) -/

/-- A heading-index entry (`DocsHeading`); a missing `children` field is
represented by `[]` (the walker only ever tests `children?.length`, for
which the two are indistinguishable). -/
inductive Heading where
  | mk (id : String) (title : String) (tag : String) (children : List Heading)
deriving Repr

/-- Projections. -/
def Heading.idOf : Heading → String
  | .mk i _ _ _ => i

def Heading.titleOf : Heading → String
  | .mk _ t _ _ => t

def Heading.tagOf : Heading → String
  | .mk _ _ tg _ => tg

def Heading.children : Heading → List Heading
  | .mk _ _ _ cs => cs

mutual

/-- Decidable equality for heading entries (hand-rolled because of the
nested `List Heading`). -/
def decEqHeading : (a b : Heading) → Decidable (a = b)
  | Heading.mk i1 t1 g1 c1, Heading.mk i2 t2 g2 c2 =>
    match decEq i1 i2, decEq t1 t2, decEq g1 g2, decEqHeadingList c1 c2 with
    | isTrue h1, isTrue h2, isTrue h3, isTrue h4 => isTrue (by rw [h1, h2, h3, h4])
    | isFalse h1, _, _, _ => isFalse (by intro h; injection h; contradiction)
    | _, isFalse h2, _, _ => isFalse (by intro h; injection h; contradiction)
    | _, _, isFalse h3, _ => isFalse (by intro h; injection h; contradiction)
    | _, _, _, isFalse h4 => isFalse (by intro h; injection h; contradiction)

/-- Decidable equality for heading lists. -/
def decEqHeadingList : (a b : List Heading) → Decidable (a = b)
  | [], [] => isTrue rfl
  | [], _ :: _ => isFalse (fun h => List.noConfusion h)
  | _ :: _, [] => isFalse (fun h => List.noConfusion h)
  | a :: as, b :: bs =>
    match decEqHeading a b, decEqHeadingList as bs with
    | isTrue h1, isTrue h2 => isTrue (by rw [h1, h2])
    | isFalse h1, _ => isFalse (by intro h; injection h; contradiction)
    | _, isFalse h2 => isFalse (by intro h; injection h; contradiction)

end

instance : DecidableEq Heading := decEqHeading

/-- Membership of `headingInfo` (docs.ts line 1757). -/
def isHTag (t : String) : Bool :=
  t = "h1" || t = "h2" || t = "h3" || t = "h4" || t = "h5" || t = "h6"

/-- `headingInfo.get` (0 for non-heading tags, never read there). -/
def hLevel (t : String) : Nat :=
  if t = "h1" then 1
  else if t = "h2" then 2
  else if t = "h3" then 3
  else if t = "h4" then 4
  else if t = "h5" then 5
  else if t = "h6" then 6
  else 0

/-- JS `Set.prototype.add` on an insertion-ordered list. -/
def setAdd (l : List String) (x : String) : List String :=
  if x ∈ l then l else l ++ [x]

/-- The candidate ids `id0-1, id0-2, …` tried by the dedup `while` loop of
docs.ts lines 2797–2807.  The loop increments the suffix until the id is
free; since the candidates are pairwise distinct, one of the first
`ids.length + 1` is always free, so the bounded search below finds the
same (least) free suffix the JS loop finds. -/
def newIdCandidates (ids : List String) (id0 : String) : List String :=
  (List.range (ids.length + 1)).map fun k => id0 ++ "-" ++ natDec (k + 1)

/-- The deduplicated id assigned to a heading: the slug itself when free,
otherwise the first free suffixed candidate. -/
def assignId (ids : List String) (id0 : String) : String :=
  if id0 ∈ ids then
    match (newIdCandidates ids id0).find? (fun c => decide (¬ c ∈ ids)) with
    | some c => c
    | none => id0
  else id0

/-- Replace the last element of a nonempty heading forest. -/
def updLast (l : List Heading) (f : Heading → Heading) : List Heading :=
  match l with
  | [] => []
  | [a] => [f a]
  | a :: rest => a :: updLast rest f

/-- The `while` walk of docs.ts lines 2828–2844: starting from a top-level
entry, descend into the last child while the current level is below
`target` and children exist, then append the new heading there. -/
def hAttach (node : Heading) (hd : Heading) (target : Nat) : Heading :=
  match node with
  | .mk i t tg [] => .mk i t tg ([] ++ [hd])
  | .mk i t tg (c0 :: csr) =>
    if hLevel tg < target then
      have hlt : sizeOf ((c0 :: csr).getLast (by simp)) < sizeOf (c0 :: csr) :=
        List.sizeOf_lt_of_mem (List.getLast_mem (by simp))
      .mk i t tg ((c0 :: csr).dropLast ++ [hAttach ((c0 :: csr).getLast (by simp)) hd target])
    else .mk i t tg (c0 :: csr ++ [hd])
termination_by sizeOf node
decreasing_by
  simp only [Heading.mk.sizeOf_spec]
  omega

/-- Register a non-`h1` heading into the index: level-2 headings append at
the top level; deeper headings attach under the last top-level entry when
the index is nonempty (docs.ts lines 2824–2844), and are dropped
otherwise. -/
def registerHeading (headings : List Heading) (hd : Heading) (level : Nat) : List Heading :=
  if level = 2 then headings ++ [hd]
  else if 2 < level then
    match headings with
    | [] => []
    | h0 :: hr => (h0 :: hr).dropLast ++ [hAttach ((h0 :: hr).getLast (by simp)) hd (level - 1)]
  else headings

/-- The walker state: the accumulated output (`_output.ref`), the page
title (`title.ref`), the heading index (`headings.ref`) and the id set
(`_ids`). -/
structure HtmlSt where
  output : String
  title : String
  headings : List Heading
  ids : List String
deriving Repr, DecidableEq

/-- The serialized attribute string of the permalink anchor a heading
emits right after its text (docs.ts lines 2881–2895, the recursive
`getHtml` call unfolded on the constructed leaf node; the equivalence with
the recursive call is proved as `getHtml_permalink_eq` below). -/
def permalinkHtml (id s : String) : String :=
  "<a href=\"#" ++ id ++ "\" aria-label=\"Permalink: " ++ s ++ "\">#</a>"

/-- Serialize an attribute list in insertion order. -/
def attrString (l : List (String × String)) : String :=
  String.join (l.map fun kv => " " ++ kv.1 ++ "=\"" ++ kv.2 ++ "\"")

mutual

/-- `getHtml` from docs.ts with the caller-supplied `filterAttr` hook at
its default (the identity, installed when the caller passes none).  Empty
string/array content is skipped; heading-tagged string nodes get a
deduplicated id, set the title (`h1`) or register into the heading index
(`h2`–`h6`), and emit a permalink anchor after their text; the array case
recurses with the *same* `outer` tag (docs.ts line 2874 passes `outerTag`
through unchanged). -/
def getHtml (d : Content) (outer : String) (st : HtmlSt) : HtmlSt :=
  match d with
  | Content.str tag link s =>
    if s = "" then st
    else
      let tagS := tag.getD ""
      let isHeading := isHTag tagS
      let isLink := optTruthy link && tag = some "a"
      let isHeadingLink := isLink && isHTag outer
      let id := if isHeading then assignId st.ids (getId s) else ""
      let st1 :=
        if isHeading then
          if tag = some "h1" then { st with title := s }
          else
            { st with
              ids := setAdd st.ids id
              headings := registerHeading st.headings (Heading.mk id s tagS []) (hLevel tagS) }
        else st
      let attrList : List (String × String) :=
        (if isHeading then [("id", id)] else [])
          ++ (if isLink then [("href", link.getD "")] else [])
          ++ (if isHeadingLink then [("aria-label", s)] else [])
      let opening := if tag.isSome then "<" ++ tagS ++ attrString attrList ++ ">" else ""
      let closing := if tag.isSome then "</" ++ tagS ++ ">" else ""
      let body := if isHeadingLink then "#" else markdownToHtml s
      let permalink := if isHeading then permalinkHtml id s else ""
      { st1 with output := st1.output ++ opening ++ body ++ permalink ++ closing }
  | Content.arr tag link cs =>
    if cs.isEmpty then st
    else
      let tagS := tag.getD ""
      let isLink := optTruthy link && tag = some "a"
      let attrList : List (String × String) := if isLink then [("href", link.getD "")] else []
      let opening := if tag.isSome then "<" ++ tagS ++ attrString attrList ++ ">" else ""
      let closing := if tag.isSome then "</" ++ tagS ++ ">" else ""
      let st1 := { st with output := st.output ++ opening }
      let st2 := getHtmlList cs outer st1
      { st2 with output := st2.output ++ closing }

/-- `content.forEach(item => getHtml(item, …))`. -/
def getHtmlList (l : List Content) (outer : String) (st : HtmlSt) : HtmlSt :=
  match l with
  | [] => st
  | d :: ds => getHtmlList ds outer (getHtml d outer st)

end

/-- The walker as invoked per output unit by `renderHtmlDocs`
(docs.ts line 3420): fresh title/headings/output/ids. -/
def getHtmlTop (d : Content) : HtmlSt :=
  getHtml d "" ⟨"", "", [], []⟩

/-! ## Navigation assembler (`renderHtmlDocs`, docs.ts lines 3400–3456) -/

/-- A navigation entry (`DocsNavigationItem`); a missing `children` field
is represented by `[]` (the assembler only sets `children` when
nonempty). -/
inductive NavItem where
  | mk (id : String) (title : String) (link : String) (children : List NavItem)
deriving Repr

/-- Projections. -/
def NavItem.idOf : NavItem → String
  | .mk i _ _ _ => i

def NavItem.children : NavItem → List NavItem
  | .mk _ _ _ cs => cs

/-- Set the `children` field. -/
def NavItem.withChildren : NavItem → List NavItem → NavItem
  | .mk i t l _, cs => .mk i t l cs

/-- `navigationMap.get`. -/
def navGet (m : List (String × NavItem)) (k : String) : Option NavItem :=
  (m.find? (fun p => p.1 = k)).map (fun p => p.2)

/-- The code-unit lexicographic order of JS `Array.prototype.sort`
(UTF-16 code units; on the character lists this is plain lexicographic
comparison, which agrees for the ASCII slugs produced here). -/
def charListLe : List Char → List Char → Bool
  | [], _ => true
  | _ :: _, [] => false
  | a :: as, b :: bs => if a = b then charListLe as bs else decide (a < b)

/-- String comparison of the JS sort. -/
def strLe (a b : String) : Bool := charListLe a.data b.data

/-- Insertion sort by the JS comparator. -/
def insertSorted (x : String) : List String → List String
  | [] => [x]
  | y :: ys => if strLe x y then x :: y :: ys else y :: insertSorted x ys

/-- `navigationSlugs.sort()`. -/
def sortSlugs : List String → List String
  | [] => []
  | x :: xs => insertSorted x (sortSlugs xs)

/-- One iteration of the `for (const slug of navigationSlugs)` loop
(docs.ts 3436–3456): look the slug up, claim every strictly-longer slug
extending it as a child (deleting each from the map — a lookup of an
already-deleted slug contributes nothing; in JS it pushes `undefined`,
which is only reachable when the parent itself was already deleted and
the children list is then discarded), and append the item, with its
children when any, to the navigation. -/
def navLoop (allSlugs : List String) :
    List String → List (String × NavItem) → List NavItem → List NavItem
  | [], _, acc => acc
  | slug :: rest, m, acc =>
    let item? := navGet m slug
    let claimed := allSlugs.filter fun s => strStarts s slug && s ≠ slug
    let children := claimed.filterMap fun s => navGet m s
    let m1 := m.filter fun kv => !(strStarts kv.1 slug && kv.1 ≠ slug)
    match item? with
    | none => navLoop allSlugs rest m1 acc
    | some item =>
      navLoop allSlugs rest m1
        (acc ++ [if children.isEmpty then item else item.withChildren children])

/-- The navigation forest built from the per-directory slugs and their
items. -/
def buildNavigation (entries : List (String × NavItem)) : List NavItem :=
  let slugs := sortSlugs (entries.map fun e => e.1)
  navLoop slugs slugs entries []

/-! ## The per-directory unit loop of `getDocs` (docs.ts lines 3121–3197)

Only the `typedef` and `function` branches are embedded (lines 3146–3152
and 3164–3171): these are the branches the claims exercise.  `types` and
`usedTypes` are shared between them exactly as in the source; a top-level
typedef renders at depth 2 under the trailing `Types` heading, a function
at depth 0 (single-export unit) or 1. -/

def unitItemsF (fuel : Nat) (ctx : Ctx) (docFunctions : List (String × Entity)) (single : Bool) :
    List (String × Kind) → List Content → List Content → List String → List String →
    Except RErr (List Content × List Content × List String × List String)
  | [], types, fns, uT, uF => .ok (types, fns, uT, uF)
  | (name, kind) :: rest, types, fns, uT, uF =>
    if kind = Kind.typedef then
      match lookupType ctx.docTypes name with
      | some info =>
        if name ∈ uT then unitItemsF fuel ctx docFunctions single rest types fns uT uF
        else do
          let (sec, d, u) ← gtcF fuel ctx (some name) info Kind.typedef 2 (uT ++ [name])
          unitItemsF fuel ctx docFunctions single rest (types ++ d ++ sec) fns u uF
      | none => unitItemsF fuel ctx docFunctions single rest types fns uT uF
    else if kind = Kind.function then
      match lookupType docFunctions name with
      | some info =>
        if name ∈ uF then unitItemsF fuel ctx docFunctions single rest types fns uT uF
        else do
          let (sec, d, u) ← gtcF fuel ctx none info Kind.function (if single then 0 else 1) uT
          unitItemsF fuel ctx docFunctions single rest (types ++ d) (fns ++ sec) u (uF ++ [name])
      | none => unitItemsF fuel ctx docFunctions single rest types fns uT uF
    else unitItemsF fuel ctx docFunctions single rest types fns uT uF

/-- The unit's trailing types block: the `Types` heading is prepended when
any type content was materialized (docs.ts lines 3192–3197). -/
def unitTypesF (fuel : Nat) (ctx : Ctx) (docFunctions : List (String × Entity)) (single : Bool)
    (items : List (String × Kind)) : Except RErr (List Content) := do
  let (types, _, _, _) ← unitItemsF fuel ctx docFunctions single items [] [] [] []
  .ok (if types.isEmpty then [] else Content.str (some "h2") none "Types" :: types)

/-! ## Invariant framework for the resolver

`countH3 nm` counts the top-level nodes of a content list that are the
`h3` heading of a materialized section named `nm` (materialization always
happens at depth 2, so a section's own heading is `h3`; every other
heading a depth-2 typedef section contains is `h4` or deeper). -/

/-- Whether a node is the string node `{ tag: 'h3', content: nm }`. -/
def isH3Named (nm : String) : Content → Bool
  | Content.str t lk s => t = some "h3" && lk = none && s = nm
  | _ => false

/-- Number of `h3`-heading nodes named `nm` at the top level of a list. -/
def countH3 (nm : String) (l : List Content) : Nat :=
  l.countP (isH3Named nm)

theorem countH3_nil (nm : String) : countH3 nm [] = 0 := rfl

theorem countH3_append (nm : String) (l1 l2 : List Content) :
    countH3 nm (l1 ++ l2) = countH3 nm l1 + countH3 nm l2 :=
  List.countP_append _ _ _

/-- The number of registered entity names not yet in the used set: the
decreasing measure of the JS recursion (`usedTypes` grows inside the
finite set of registered names). -/
def unusedCount (docTypes : List (String × Entity)) (used : List String) : Nat :=
  ((docTypes.map fun p => p.2.data.name).toFinset \ used.toFinset).card

theorem unusedCount_le_of_subset (docTypes : List (String × Entity)) {u1 u2 : List String}
    (h : u1 ⊆ u2) : unusedCount docTypes u2 ≤ unusedCount docTypes u1 := by
  apply Finset.card_le_card
  apply Finset.sdiff_subset_sdiff (le_refl _)
  intro x hx
  rw [List.mem_toFinset] at *
  exact h hx

theorem unusedCount_lt_insert (docTypes : List (String × Entity)) {used : List String}
    {nm : String} (hmem : nm ∈ docTypes.map fun p => p.2.data.name) (hnew : nm ∉ used) :
    unusedCount docTypes (used ++ [nm]) < unusedCount docTypes used := by
  unfold unusedCount
  have h1 : (used ++ [nm]).toFinset = insert nm used.toFinset := by
    simp only [List.toFinset_append, List.toFinset_cons, List.toFinset_nil]
    ext x
    simp only [Finset.mem_union, Finset.mem_insert, Finset.mem_singleton]
    tauto
  rw [h1]
  have h2 : (docTypes.map fun p => p.2.data.name).toFinset \ insert nm used.toFinset
      = ((docTypes.map fun p => p.2.data.name).toFinset \ used.toFinset).erase nm := by
    ext x
    simp only [Finset.mem_sdiff, Finset.mem_insert, Finset.mem_erase]
    tauto
  rw [h2]
  apply Finset.card_erase_lt_of_mem
  rw [Finset.mem_sdiff, List.mem_toFinset, List.mem_toFinset]
  exact ⟨hmem, hnew⟩

/-- A successful registry lookup yields a registered entity name. -/
theorem lookupType_name_mem {m : List (String × Entity)} {k : String} {e : Entity}
    (h : lookupType m k = some e) : e.data.name ∈ m.map fun p => p.2.data.name := by
  unfold lookupType at h
  cases hf : m.find? (fun p => p.1 = k) with
  | none => rw [hf] at h; exact Option.noConfusion h
  | some p =>
    rw [hf] at h
    simp only [Option.map_some', Option.some.injEq] at h
    subst h
    exact List.mem_map_of_mem _ (List.mem_of_find?_eq_some hf)

/-- The materialize-once invariant of a types delta produced over a run
from `used` to `u2`: no section for an already-used name, at most one
section per name, and every materialized name ends up used. -/
def DeltaInv (used u2 : List String) (d : List Content) : Prop :=
  (∀ nm, nm ∈ used → countH3 nm d = 0) ∧ (∀ nm, countH3 nm d ≤ 1)
    ∧ (∀ nm, 1 ≤ countH3 nm d → nm ∈ u2)

theorem deltaInv_nil (used u2 : List String) : DeltaInv used u2 [] := by
  refine ⟨fun nm _ => rfl, fun nm => ?_, fun nm h => ?_⟩
  · rw [countH3_nil]
    omega
  · rw [countH3_nil] at h
    omega

theorem DeltaInv.mono {used u2 u3 : List String} {d : List Content}
    (h : DeltaInv used u2 d) (hsub : u2 ⊆ u3) : DeltaInv used u3 d :=
  ⟨h.1, h.2.1, fun nm hc => hsub (h.2.2 nm hc)⟩

theorem DeltaInv.append {u0 u1 u2 : List String} {d1 d2 : List Content}
    (h1 : DeltaInv u0 u1 d1) (h2 : DeltaInv u1 u2 d2) (hs1 : u0 ⊆ u1) (hs2 : u1 ⊆ u2) :
    DeltaInv u0 u2 (d1 ++ d2) := by
  obtain ⟨a1, b1, c1⟩ := h1
  obtain ⟨a2, b2, c2⟩ := h2
  refine ⟨fun nm hm => ?_, fun nm => ?_, fun nm hc => ?_⟩
  · rw [countH3_append, a1 nm hm, a2 nm (hs1 hm)]
  · rw [countH3_append]
    by_cases hz : 1 ≤ countH3 nm d1
    · have := a2 nm (c1 nm hz)
      have := b1 nm
      omega
    · have := b2 nm
      omega
  · rw [countH3_append] at hc
    by_cases hz : 1 ≤ countH3 nm d1
    · exact hs2 (c1 nm hz)
    · exact c2 nm (by omega)

theorem okBind {α β : Type} (a : α) (f : α → Except RErr β) :
    (Except.ok a : Except RErr α) >>= f = f a := rfl

theorem errBind {α β : Type} (e : RErr) (f : α → Except RErr β) :
    (Except.error e : Except RErr α) >>= f = Except.error e := rfl

/-- Composition of the materialize-once invariants around one
materialization site: delta of the materialized entity, its section, and
the delta of the continuation. -/
theorem deltaInv_materialize {used u1 u2 : List String} {n : String} {d1 sec d2 : List Content}
    (hn : n ∉ used)
    (hsub1 : used ++ [n] ⊆ u1) (h1 : DeltaInv (used ++ [n]) u1 d1)
    (hsec : ∀ nm, countH3 nm sec ≤ if nm = n then 1 else 0)
    (hsub2 : u1 ⊆ u2) (h2 : DeltaInv u1 u2 d2) :
    DeltaInv used u2 (d1 ++ sec ++ d2) := by
  obtain ⟨a1, b1, c1⟩ := h1
  obtain ⟨a2, b2, c2⟩ := h2
  have hnu1 : n ∈ u1 := hsub1 (by simp)
  have hassoc : d1 ++ sec ++ d2 = d1 ++ (sec ++ d2) := by simp
  refine ⟨fun nm hm => ?_, fun nm => ?_, fun nm hc => ?_⟩
  · have hnm : nm ≠ n := fun he => hn (he ▸ hm)
    rw [hassoc, countH3_append, countH3_append]
    rw [a1 nm (by simp [hm]), a2 nm (hsub1 (by simp [hm]))]
    have := hsec nm
    rw [if_neg hnm] at this
    omega
  · rw [hassoc, countH3_append, countH3_append]
    by_cases he : nm = n
    · subst he
      rw [a1 nm (by simp), a2 nm hnu1]
      have := hsec nm
      rw [if_pos rfl] at this
      omega
    · have hs := hsec nm
      rw [if_neg he] at hs
      by_cases hz : 1 ≤ countH3 nm d1
      · rw [a2 nm (c1 nm hz)]
        have := b1 nm
        omega
      · have := b2 nm
        omega
  · rw [hassoc, countH3_append, countH3_append] at hc
    by_cases hz1 : 1 ≤ countH3 nm d1
    · exact hsub2 (c1 nm hz1)
    · by_cases he : nm = n
      · exact he ▸ hsub2 hnu1
      · have hs := hsec nm
        rw [if_neg he] at hs
        exact c2 nm (by omega)

/-- What the loop lemmas assume about the materializer's successful
results: the used set grows, the delta satisfies the materialize-once
invariant, and the produced section carries at most one `h3` heading,
namely the materialized entity's own. -/
def MatOkInv (mat : Mat) : Prop :=
  ∀ dt tok u1 x d u2, mat dt tok u1 = .ok (x, d, u2) →
    u1 ⊆ u2 ∧ DeltaInv u1 u2 d ∧ ∀ nm, countH3 nm x ≤ if nm = dt.data.name then 1 else 0

theorem bind_ok_iff {α β : Type} {m : Except RErr α} {f : α → Except RErr β} {b : β} :
    (m >>= f) = .ok b ↔ ∃ a, m = .ok a ∧ f a = .ok b := by
  cases m with
  | error e =>
    rw [errBind]
    constructor
    · intro h; exact Except.noConfusion h
    · rintro ⟨a, ha, -⟩; exact Except.noConfusion ha
  | ok a =>
    rw [okBind]
    constructor
    · intro h; exact ⟨a, rfl, h⟩
    · rintro ⟨a2, ha, hf⟩
      cases ha
      exact hf

/-- Token loop: a successful run only grows the used set and its types
delta satisfies the materialize-once invariant. -/
theorem gctP_inv (ctx : Ctx) (mat : Mat) (selfKey : Option String) (tM : List String)
    (hmat : MatOkInv mat) :
    ∀ (tokens used : List String) (x : List Content) (d : List Content) (u2 : List String),
      gctP ctx mat selfKey tM tokens used = .ok (x, d, u2) →
      used ⊆ u2 ∧ DeltaInv used u2 d := by
  intro tokens
  induction tokens with
  | nil =>
    intro used x d u2 h
    rw [gctP] at h
    simp only [Except.ok.injEq, Prod.mk.injEq] at h
    obtain ⟨-, hd, hu⟩ := h
    subst hd; subst hu
    exact ⟨fun a ha => ha, deltaInv_nil _ _⟩
  | cons tok rest ih =>
    intro used x d u2 h
    rw [gctP] at h
    by_cases htm : tok ∈ tM
    · rw [if_pos htm] at h
      revert h
      cases hlk : lookupType ctx.docTypes tok with
      | none =>
        intro h
        simp only [] at h
        rw [bind_ok_iff] at h
        obtain ⟨⟨cs, d1, u1⟩, hrec, h⟩ := h
        simp only [Except.ok.injEq, Prod.mk.injEq] at h
        obtain ⟨-, hd, hu⟩ := h
        subst hd; subst hu
        exact ih _ _ _ _ hrec
      | some dt =>
        intro h
        simp only [] at h
        by_cases hself : selfKey = some tok
        · rw [if_pos hself] at h
          rw [bind_ok_iff] at h
          obtain ⟨⟨cs, d1, u1⟩, hrec, h⟩ := h
          simp only [Except.ok.injEq, Prod.mk.injEq] at h
          obtain ⟨-, hd, hu⟩ := h
          subst hd; subst hu
          exact ih _ _ _ _ hrec
        · rw [if_neg hself] at h
          by_cases hmem : dt.data.name ∈ used
          · rw [if_pos hmem] at h
            rw [bind_ok_iff] at h
            obtain ⟨⟨cs, d1, u1⟩, hrec, h⟩ := h
            simp only [Except.ok.injEq, Prod.mk.injEq] at h
            obtain ⟨-, hd, hu⟩ := h
            subst hd; subst hu
            exact ih _ _ _ _ hrec
          · rw [if_neg hmem] at h
            rw [bind_ok_iff] at h
            obtain ⟨⟨sec, d1, u1⟩, hmt, h⟩ := h
            simp only [] at h
            rw [bind_ok_iff] at h
            obtain ⟨⟨cs, d2, u2x⟩, hrec, h⟩ := h
            simp only [Except.ok.injEq, Prod.mk.injEq] at h
            obtain ⟨-, hd, hu⟩ := h
            subst hd; subst hu
            obtain ⟨hm1, hm2, hm3⟩ := hmat dt tok _ _ _ _ hmt
            obtain ⟨hr1, hr2⟩ := ih _ _ _ _ hrec
            refine ⟨?_, deltaInv_materialize hmem hm1 hm2 hm3 hr1 hr2⟩
            intro a ha
            exact hr1 (hm1 (by simp [ha]))
    · rw [if_neg htm] at h
      rw [bind_ok_iff] at h
      obtain ⟨⟨cs, d1, u1⟩, hrec, h⟩ := h
      simp only [Except.ok.injEq, Prod.mk.injEq] at h
      obtain ⟨-, hd, hu⟩ := h
      subst hd; subst hu
      exact ih _ _ _ _ hrec

/-- Name loop: same invariant as the token loop. -/
theorem gcnP_inv (ctx : Ctx) (mat : Mat) (selfKey : Option String)
    (hmat : MatOkInv mat) :
    ∀ (names used : List String) (acc x d : List Content) (u2 : List String),
      gcnP ctx mat selfKey names used acc = .ok (x, d, u2) →
      used ⊆ u2 ∧ DeltaInv used u2 d := by
  intro names
  induction names with
  | nil =>
    intro used acc x d u2 h
    rw [gcnP] at h
    simp only [Except.ok.injEq, Prod.mk.injEq] at h
    obtain ⟨-, hd, hu⟩ := h
    subst hd; subst hu
    exact ⟨fun a ha => ha, deltaInv_nil _ _⟩
  | cons nm rest ih =>
    intro used acc x d u2 h
    rw [gcnP] at h
    by_cases hemp : (typeMatches nm).isEmpty
    · rw [if_pos hemp] at h
      exact ih _ _ _ _ _ h
    · rw [if_neg hemp] at h
      rw [bind_ok_iff] at h
      obtain ⟨⟨cs, d1, u1⟩, hct, h⟩ := h
      simp only [] at h
      rw [bind_ok_iff] at h
      obtain ⟨⟨res, d2, u2x⟩, hrec, h⟩ := h
      simp only [Except.ok.injEq, Prod.mk.injEq] at h
      obtain ⟨-, hd, hu⟩ := h
      subst hd; subst hu
      obtain ⟨h1, h2⟩ := gctP_inv ctx mat selfKey _ hmat _ _ _ _ _ hct
      obtain ⟨h3, h4⟩ := ih _ _ _ _ _ hrec
      exact ⟨fun a ha => h3 (h1 ha), h2.append h4 h1 h3⟩

/-- Field loop: same invariant. -/
theorem gFieldsP_inv (ctx : Ctx) (mat : Mat) (selfKey : Option String) (isHtml : Bool)
    (hmat : MatOkInv mat) :
    ∀ (fields : List Param) (used : List String) (x d : List Content) (u2 : List String),
      gFieldsP ctx mat selfKey isHtml fields used = .ok (x, d, u2) →
      used ⊆ u2 ∧ DeltaInv used u2 d := by
  intro fields
  induction fields with
  | nil =>
    intro used x d u2 h
    rw [gFieldsP] at h
    simp only [Except.ok.injEq, Prod.mk.injEq] at h
    obtain ⟨-, hd, hu⟩ := h
    subst hd; subst hu
    exact ⟨fun a ha => ha, deltaInv_nil _ _⟩
  | cons f rest ih =>
    intro used x d u2 h
    rw [gFieldsP] at h
    rw [bind_ok_iff] at h
    obtain ⟨⟨tc, d1, u1⟩, hcn, h⟩ := h
    simp only [] at h
    rw [bind_ok_iff] at h
    obtain ⟨⟨csRest, d2, u2x⟩, hrec, h⟩ := h
    simp only [Except.ok.injEq, Prod.mk.injEq] at h
    obtain ⟨-, hd, hu⟩ := h
    subst hd; subst hu
    obtain ⟨h1, h2⟩ := gcnP_inv ctx mat selfKey hmat _ _ _ _ _ _ hcn
    obtain ⟨h3, h4⟩ := ih _ _ _ _ hrec
    exact ⟨fun a ha => h3 (h1 ha), h2.append h4 h1 h3⟩

theorem bind_err_iff {α β : Type} {m : Except RErr α} {f : α → Except RErr β} {e : RErr} :
    (m >>= f) = .error e ↔ m = .error e ∨ ∃ a, m = .ok a ∧ f a = .error e := by
  cases m with
  | error e1 =>
    rw [errBind]
    constructor
    · intro h
      injection h with he
      subst he
      exact Or.inl rfl
    · rintro (h | ⟨a, ha, -⟩)
      · injection h with he
        subst he
        rfl
      · exact Except.noConfusion ha
  | ok a =>
    rw [okBind]
    constructor
    · intro h; exact Or.inr ⟨a, rfl, h⟩
    · rintro (h | ⟨a2, ha, hf⟩)
      · exact Except.noConfusion h
      · cases ha; exact hf

/-- What the fuel lemmas assume of the materializer: it only reports fuel
exhaustion when the budget would really be exceeded. -/
def MatFuelInv (ctx : Ctx) (mat : Mat) (B : Nat) : Prop :=
  ∀ dt tok u1, unusedCount ctx.docTypes u1 + 1 < B → mat dt tok u1 ≠ .error RErr.fuel

/-- Token loop: no fuel exhaustion below the budget. -/
theorem gctP_fuel (ctx : Ctx) (mat : Mat) (selfKey : Option String) (tM : List String)
    (B : Nat) (hmat : MatOkInv mat) (hmatF : MatFuelInv ctx mat B) :
    ∀ (tokens used : List String), unusedCount ctx.docTypes used < B →
      gctP ctx mat selfKey tM tokens used ≠ .error RErr.fuel := by
  intro tokens
  induction tokens with
  | nil =>
    intro used hu h
    rw [gctP] at h
    exact Except.noConfusion h
  | cons tok rest ih =>
    intro used hu h
    rw [gctP] at h
    by_cases htm : tok ∈ tM
    · rw [if_pos htm] at h
      revert h
      cases hlk : lookupType ctx.docTypes tok with
      | none =>
        intro h
        simp only [] at h
        rw [bind_err_iff] at h
        rcases h with h | ⟨a, -, h⟩
        · exact ih used hu h
        · obtain ⟨cs, d1, u1⟩ := a
          simp only [] at h
          exact Except.noConfusion h
      | some dt =>
        intro h
        simp only [] at h
        by_cases hself : selfKey = some tok
        · rw [if_pos hself] at h
          rw [bind_err_iff] at h
          rcases h with h | ⟨a, -, h⟩
          · exact ih used hu h
          · obtain ⟨cs, d1, u1⟩ := a
            simp only [] at h
            exact Except.noConfusion h
        · rw [if_neg hself] at h
          by_cases hmem : dt.data.name ∈ used
          · rw [if_pos hmem] at h
            rw [bind_err_iff] at h
            rcases h with h | ⟨a, -, h⟩
            · exact ih used hu h
            · obtain ⟨cs, d1, u1⟩ := a
              simp only [] at h
              exact Except.noConfusion h
          · rw [if_neg hmem] at h
            have hdrop : unusedCount ctx.docTypes (used ++ [dt.data.name]) < unusedCount ctx.docTypes used :=
              unusedCount_lt_insert ctx.docTypes (lookupType_name_mem hlk) hmem
            rw [bind_err_iff] at h
            rcases h with h | ⟨a, hok, h⟩
            · exact hmatF dt tok _ (by omega) h
            · obtain ⟨sec, d1, u1⟩ := a
              simp only [] at h
              rw [bind_err_iff] at h
              rcases h with h | ⟨a2, -, h⟩
              · have hsub := (hmat dt tok _ _ _ _ hok).1
                have : unusedCount ctx.docTypes u1 ≤ unusedCount ctx.docTypes (used ++ [dt.data.name]) :=
                  unusedCount_le_of_subset ctx.docTypes hsub
                exact ih u1 (by omega) h
              · obtain ⟨cs, d2, u2⟩ := a2
                simp only [] at h
                exact Except.noConfusion h
    · rw [if_neg htm] at h
      rw [bind_err_iff] at h
      rcases h with h | ⟨a, -, h⟩
      · exact ih used hu h
      · obtain ⟨cs, d1, u1⟩ := a
        simp only [] at h
        exact Except.noConfusion h

/-- Name loop: no fuel exhaustion below the budget. -/
theorem gcnP_fuel (ctx : Ctx) (mat : Mat) (selfKey : Option String)
    (B : Nat) (hmat : MatOkInv mat) (hmatF : MatFuelInv ctx mat B) :
    ∀ (names used : List String) (acc : List Content), unusedCount ctx.docTypes used < B →
      gcnP ctx mat selfKey names used acc ≠ .error RErr.fuel := by
  intro names
  induction names with
  | nil =>
    intro used acc hu h
    rw [gcnP] at h
    exact Except.noConfusion h
  | cons nm rest ih =>
    intro used acc hu h
    rw [gcnP] at h
    by_cases hemp : (typeMatches nm).isEmpty
    · rw [if_pos hemp] at h
      exact ih used _ hu h
    · rw [if_neg hemp] at h
      rw [bind_err_iff] at h
      rcases h with h | ⟨a, hok, h⟩
      · exact gctP_fuel ctx mat selfKey _ B hmat hmatF _ used hu h
      · obtain ⟨cs, d1, u1⟩ := a
        simp only [] at h
        rw [bind_err_iff] at h
        rcases h with h | ⟨a2, -, h⟩
        · have hsub := (gctP_inv ctx mat selfKey _ hmat _ _ _ _ _ hok).1
          have := unusedCount_le_of_subset ctx.docTypes hsub
          exact ih u1 _ (by omega) h
        · obtain ⟨res, d2, u2⟩ := a2
          simp only [] at h
          exact Except.noConfusion h

/-- Field loop: no fuel exhaustion below the budget. -/
theorem gFieldsP_fuel (ctx : Ctx) (mat : Mat) (selfKey : Option String) (isHtml : Bool)
    (B : Nat) (hmat : MatOkInv mat) (hmatF : MatFuelInv ctx mat B) :
    ∀ (fields : List Param) (used : List String), unusedCount ctx.docTypes used < B →
      gFieldsP ctx mat selfKey isHtml fields used ≠ .error RErr.fuel := by
  intro fields
  induction fields with
  | nil =>
    intro used hu h
    rw [gFieldsP] at h
    exact Except.noConfusion h
  | cons f rest ih =>
    intro used hu h
    rw [gFieldsP] at h
    rw [bind_err_iff] at h
    rcases h with h | ⟨a, hok, h⟩
    · exact gcnP_fuel ctx mat selfKey B hmat hmatF _ used [] hu h
    · obtain ⟨tc, d1, u1⟩ := a
      simp only [] at h
      rw [bind_err_iff] at h
      rcases h with h | ⟨a2, -, h⟩
      · have hsub := (gcnP_inv ctx mat selfKey hmat _ _ _ _ _ _ hok).1
        have := unusedCount_le_of_subset ctx.docTypes hsub
        exact ih u1 (by omega) h
      · obtain ⟨csRest, d2, u2⟩ := a2
        simp only [] at h
        exact Except.noConfusion h

/-! ## Step lemmas for the `getTypeContent` sections -/

/-- `secType`: invariant of successful results, and its section carries no
`h3` nodes. -/
theorem secType_inv (ctx : Ctx) (mat : Mat) (selfKey : Option String) (isTy : Bool)
    (tys : List String) (used : List String) (hmat : MatOkInv mat) :
    ∀ x d u2, secType ctx mat selfKey isTy tys used = .ok (x, d, u2) →
      used ⊆ u2 ∧ DeltaInv used u2 d ∧ ∀ nm, countH3 nm x = 0 := by
  intro x d u2 h
  rw [secType] at h
  cases isTy with
  | false =>
    simp only [Bool.false_eq_true, if_false, Except.ok.injEq, Prod.mk.injEq] at h
    obtain ⟨hx, hd, hu⟩ := h
    subst hx; subst hd; subst hu
    exact ⟨fun a ha => ha, deltaInv_nil _ _, fun nm => rfl⟩
  | true =>
    simp only [if_true] at h
    rw [bind_ok_iff] at h
    obtain ⟨⟨tc, d1, u1⟩, hcn, h⟩ := h
    simp only [Except.ok.injEq, Prod.mk.injEq] at h
    obtain ⟨hx, hd, hu⟩ := h
    subst hx; subst hd; subst hu
    obtain ⟨h1, h2⟩ := gcnP_inv ctx mat selfKey hmat _ _ _ _ _ _ hcn
    refine ⟨h1, h2, fun nm => ?_⟩
    simp [countH3, List.countP_cons, isH3Named, labeledCode, wrap]

/-- `secType`: no fuel exhaustion below the budget. -/
theorem secType_fuel (ctx : Ctx) (mat : Mat) (selfKey : Option String) (isTy : Bool)
    (tys : List String) (used : List String) (B : Nat)
    (hmat : MatOkInv mat) (hmatF : MatFuelInv ctx mat B)
    (hu : unusedCount ctx.docTypes used < B) :
    secType ctx mat selfKey isTy tys used ≠ .error RErr.fuel := by
  intro h
  rw [secType] at h
  cases isTy with
  | false => simp only [Bool.false_eq_true, if_false] at h; exact Except.noConfusion h
  | true =>
    simp only [if_true] at h
    rw [bind_err_iff] at h
    rcases h with h | ⟨a, -, h⟩
    · exact gcnP_fuel ctx mat selfKey B hmat hmatF _ _ _ hu h
    · obtain ⟨tc, d1, u1⟩ := a
      simp only [] at h
      exact Except.noConfusion h

/-- `secAug`: invariant of successful results. -/
theorem secAug_inv (ctx : Ctx) (mat : Mat) (selfKey : Option String)
    (aug : Option (List String)) (used : List String) (hmat : MatOkInv mat) :
    ∀ x d u2, secAug ctx mat selfKey aug used = .ok (x, d, u2) →
      used ⊆ u2 ∧ DeltaInv used u2 d ∧ ∀ nm, countH3 nm x = 0 := by
  intro x d u2 h
  rw [secAug] at h
  by_cases hau : aug.isSome
  · rw [if_pos hau] at h
    rw [bind_ok_iff] at h
    obtain ⟨⟨ac, d1, u1⟩, hcn, h⟩ := h
    simp only [Except.ok.injEq, Prod.mk.injEq] at h
    obtain ⟨hx, hd, hu⟩ := h
    subst hx; subst hd; subst hu
    obtain ⟨h1, h2⟩ := gcnP_inv ctx mat selfKey hmat _ _ _ _ _ _ hcn
    refine ⟨h1, h2, fun nm => ?_⟩
    simp [countH3, List.countP_cons, isH3Named, labeledCode, wrap]
  · rw [if_neg hau] at h
    simp only [Except.ok.injEq, Prod.mk.injEq] at h
    obtain ⟨hx, hd, hu⟩ := h
    subst hx; subst hd; subst hu
    exact ⟨fun a ha => ha, deltaInv_nil _ _, fun nm => rfl⟩

/-- `secAug`: no fuel exhaustion below the budget. -/
theorem secAug_fuel (ctx : Ctx) (mat : Mat) (selfKey : Option String)
    (aug : Option (List String)) (used : List String) (B : Nat)
    (hmat : MatOkInv mat) (hmatF : MatFuelInv ctx mat B)
    (hu : unusedCount ctx.docTypes used < B) :
    secAug ctx mat selfKey aug used ≠ .error RErr.fuel := by
  intro h
  rw [secAug] at h
  by_cases hau : aug.isSome
  · rw [if_pos hau] at h
    rw [bind_err_iff] at h
    rcases h with h | ⟨a, -, h⟩
    · exact gcnP_fuel ctx mat selfKey B hmat hmatF _ _ _ hu h
    · obtain ⟨ac, d1, u1⟩ := a
      simp only [] at h
      exact Except.noConfusion h
  · rw [if_neg hau] at h
    exact Except.noConfusion h

/-- `secFields`: invariant of successful results; its section has no `h3`
nodes as long as the heading tag is not `h3`. -/
theorem secFields_inv (ctx : Ctx) (mat : Mat) (selfKey : Option String) (title htag : String)
    (isHtml : Bool) (fields : Option (List Param)) (used : List String)
    (hmat : MatOkInv mat) :
    ∀ x d u2, secFields ctx mat selfKey title htag isHtml fields used = .ok (x, d, u2) →
      used ⊆ u2 ∧ DeltaInv used u2 d ∧ (htag ≠ "h3" → ∀ nm, countH3 nm x = 0) := by
  intro x d u2 h
  rw [secFields] at h
  by_cases hne : (fields.getD []).length ≠ 0
  · rw [if_pos hne] at h
    rw [bind_ok_iff] at h
    obtain ⟨⟨plist, d1, u1⟩, hfl, h⟩ := h
    simp only [Except.ok.injEq, Prod.mk.injEq] at h
    obtain ⟨hx, hd, hu⟩ := h
    subst hx; subst hd; subst hu
    obtain ⟨h1, h2⟩ := gFieldsP_inv ctx mat selfKey isHtml hmat _ _ _ _ _ hfl
    refine ⟨h1, h2, fun hhtag nm => ?_⟩
    simp [countH3, List.countP_cons, isH3Named, fieldsSection, tnode, hhtag]
  · rw [if_neg hne] at h
    simp only [Except.ok.injEq, Prod.mk.injEq] at h
    obtain ⟨hx, hd, hu⟩ := h
    subst hx; subst hd; subst hu
    exact ⟨fun a ha => ha, deltaInv_nil _ _, fun _ nm => rfl⟩

/-- `secFields`: no fuel exhaustion below the budget. -/
theorem secFields_fuel (ctx : Ctx) (mat : Mat) (selfKey : Option String) (title htag : String)
    (isHtml : Bool) (fields : Option (List Param)) (used : List String) (B : Nat)
    (hmat : MatOkInv mat) (hmatF : MatFuelInv ctx mat B)
    (hu : unusedCount ctx.docTypes used < B) :
    secFields ctx mat selfKey title htag isHtml fields used ≠ .error RErr.fuel := by
  intro h
  rw [secFields] at h
  by_cases hne : (fields.getD []).length ≠ 0
  · rw [if_pos hne] at h
    rw [bind_err_iff] at h
    rcases h with h | ⟨a, -, h⟩
    · exact gFieldsP_fuel ctx mat selfKey isHtml B hmat hmatF _ _ hu h
    · obtain ⟨plist, d1, u1⟩ := a
      simp only [] at h
      exact Except.noConfusion h
  · rw [if_neg hne] at h
    exact Except.noConfusion h

/-- `secRet`: invariant of successful results; no `h3` nodes when the
heading tag is not `h3`. -/
theorem secRet_inv (ctx : Ctx) (mat : Mat) (selfKey : Option String) (title htag : String)
    (r : Option Ret) (used : List String) (hmat : MatOkInv mat) :
    ∀ x d u2, secRet ctx mat selfKey title htag r used = .ok (x, d, u2) →
      used ⊆ u2 ∧ DeltaInv used u2 d ∧ (htag ≠ "h3" → ∀ nm, countH3 nm x = 0) := by
  intro x d u2 h
  cases r with
  | none =>
    rw [secRet.eq_def] at h
    simp only [Except.ok.injEq, Prod.mk.injEq] at h
    obtain ⟨hx, hd, hu⟩ := h
    subst hx; subst hd; subst hu
    exact ⟨fun a ha => ha, deltaInv_nil _ _, fun _ nm => rfl⟩
  | some r =>
    rw [secRet.eq_def] at h
    rw [bind_ok_iff] at h
    obtain ⟨⟨rc, d1, u1⟩, hcn, h⟩ := h
    simp only [Except.ok.injEq, Prod.mk.injEq] at h
    obtain ⟨hx, hd, hu⟩ := h
    subst hx; subst hd; subst hu
    obtain ⟨h1, h2⟩ := gcnP_inv ctx mat selfKey hmat _ _ _ _ _ _ hcn
    refine ⟨h1, h2, fun hhtag nm => ?_⟩
    simp [countH3, List.countP_cons, isH3Named, retSection, tnode, wrap, hhtag]

/-- `secRet`: no fuel exhaustion below the budget. -/
theorem secRet_fuel (ctx : Ctx) (mat : Mat) (selfKey : Option String) (title htag : String)
    (r : Option Ret) (used : List String) (B : Nat)
    (hmat : MatOkInv mat) (hmatF : MatFuelInv ctx mat B)
    (hu : unusedCount ctx.docTypes used < B) :
    secRet ctx mat selfKey title htag r used ≠ .error RErr.fuel := by
  intro h
  cases r with
  | none => rw [secRet.eq_def] at h; exact Except.noConfusion h
  | some r =>
    rw [secRet.eq_def] at h
    rw [bind_err_iff] at h
    rcases h with h | ⟨a, -, h⟩
    · exact gcnP_fuel ctx mat selfKey B hmat hmatF _ _ _ hu h
    · obtain ⟨rc, d1, u1⟩ := a
      simp only [] at h
      exact Except.noConfusion h

/-- `normalizeExamples` never reports fuel exhaustion (its only failure is
a failed file read). -/
theorem normExLoop_no_fuel (fs : String → String → Option String) (hl : String → String → String)
    (isHtml : Bool) (dir tag : String) :
    ∀ exs, normExLoop fs hl isHtml dir tag exs ≠ .error RErr.fuel := by
  intro exs
  induction exs with
  | nil => intro h; rw [normExLoop] at h; exact Except.noConfusion h
  | cons ex rest ih =>
    intro h
    rw [normExLoop] at h
    rcases hpe : parseExample ex with ⟨title, desc, lang, code0⟩
    rw [hpe] at h
    simp only [] at h
    by_cases hst : strStarts code0 "." = true
    · rw [if_pos hst] at h
      revert h
      cases hfs : fs dir code0 with
      | none =>
        intro h
        simp only [] at h
        injection h with he
        exact RErr.noConfusion he
      | some t =>
        intro h
        simp only [okBind] at h
        rw [bind_err_iff] at h
        rcases h with h | ⟨a2, -, h⟩
        · exact ih h
        · obtain ⟨e1, c1⟩ := a2
          simp only [] at h
          exact Except.noConfusion h
    · rw [if_neg hst] at h
      simp only [okBind] at h
      rw [bind_err_iff] at h
      rcases h with h | ⟨a2, -, h⟩
      · exact ih h
      · obtain ⟨e1, c1⟩ := a2
        simp only [] at h
        exact Except.noConfusion h

/-- `normalizeExamplesF` never reports fuel exhaustion. -/
theorem normalizeExamplesF_no_fuel (fs : String → String → Option String)
    (hl : String → String → String) (rt : RenderType) (examples : List String) (dir tag : String) :
    normalizeExamplesF fs hl rt examples dir tag ≠ .error RErr.fuel := by
  intro h
  rw [normalizeExamplesF] at h
  rw [bind_err_iff] at h
  rcases h with h | ⟨a, -, h⟩
  · exact normExLoop_no_fuel fs hl _ dir tag examples h
  · obtain ⟨exs1, cts⟩ := a
    simp only [] at h
    by_cases hrt : rt = RenderType.html
    · rw [if_pos hrt] at h
      exact Except.noConfusion h
    · rw [if_neg hrt] at h
      exact Except.noConfusion h

/-- On the `typedef` path no function-alias merge happens. -/
theorem effInfo_typedef (ctx : Ctx) (info : Entity) :
    effInfo ctx info Kind.typedef = info.data := by
  rw [effInfo]
  simp

/-- A materialized (depth-2 typedef) section's heading is its only `h3`
node in the pure prefix. -/
theorem sectionPre_count_typedef (newInfo : EntityData) (nm : String) :
    countH3 nm (sectionPre newInfo Kind.typedef 2) = if nm = newInfo.name then 1 else 0 := by
  rw [sectionPre]
  by_cases hd : optTruthy newInfo.desc = true <;>
    by_cases hde : optTruthy newInfo.description = true <;>
      by_cases hnm : nm = newInfo.name <;>
        simp +decide [hd, hde, hnm, countH3, List.countP_cons, List.countP_nil,
          List.countP_append, isH3Named, tnode, hTag, natDec, natDecGo, digitChar]
  all_goals exact fun he => hnm he.symm

/-- The `Examples` block contributes no `h3` nodes when its heading tag is
not `h3`. -/
theorem examplesSection_count (htag : String) (ex : (List Content) ⊕ String) (nm : String)
    (hh : htag ≠ "h3") : countH3 nm (examplesSection htag ex) = 0 := by
  cases ex <;>
    simp [examplesSection, countH3, List.countP_cons, List.countP_nil, isH3Named, tnode, txt, hh]

/-- Invariant of a successful `gtcBody` run, given the invariants of the
materializer and of the member renderer: the used set grows, the types
delta satisfies the materialize-once invariant, and on the materialization
path (typedef at depth 2) the produced section's only `h3` heading is the
entity's own. -/
theorem gtcBody_inv (ctx : Ctx) (mat : Mat) (memb : List String → RRes) (selfKey : Option String)
    (newInfo : EntityData) (kind : Kind) (depth : Nat) (used : List String)
    (hmat : MatOkInv mat)
    (hmemb : ∀ u x d u2, memb u = .ok (x, d, u2) → u ⊆ u2 ∧ DeltaInv u u2 d) :
    ∀ x d u2, gtcBody ctx mat memb selfKey newInfo kind depth used = .ok (x, d, u2) →
      used ⊆ u2 ∧ DeltaInv used u2 d ∧
        (kind = Kind.typedef → depth = 2 →
          ∀ nm, countH3 nm x ≤ if nm = newInfo.name then 1 else 0) := by
  intro x d u2 h
  rw [gtcBody] at h
  by_cases hdir : kind = Kind.typedef ∧ newInfo.dir ≠ some ctx.dir
  · rw [if_pos hdir] at h
    simp only [Except.ok.injEq, Prod.mk.injEq] at h
    obtain ⟨hx, hd, hu⟩ := h
    subst hx; subst hd; subst hu
    refine ⟨fun a ha => ha, deltaInv_nil _ _, fun _ _ nm => ?_⟩
    rw [countH3_nil]
    split <;> omega
  · rw [if_neg hdir] at h
    rw [bind_ok_iff] at h
    obtain ⟨⟨cType, dT, uT⟩, h1, h⟩ := h
    simp only [] at h
    rw [bind_ok_iff] at h
    obtain ⟨⟨cAug, dA, uA⟩, h2, h⟩ := h
    simp only [] at h
    rw [bind_ok_iff] at h
    obtain ⟨⟨cProps, dP, uP⟩, h3, h⟩ := h
    simp only [] at h
    rw [bind_ok_iff] at h
    obtain ⟨⟨cParams, dPa, uPa⟩, h4, h⟩ := h
    simp only [] at h
    rw [bind_ok_iff] at h
    obtain ⟨⟨cRet, dR, uR⟩, h5, h⟩ := h
    simp only [] at h
    rw [bind_ok_iff] at h
    obtain ⟨⟨cYld, dY, uY⟩, h6, h⟩ := h
    simp only [] at h
    obtain ⟨s1, di1, c1⟩ := secType_inv ctx mat selfKey _ _ _ hmat _ _ _ h1
    obtain ⟨s2, di2, c2⟩ := secAug_inv ctx mat selfKey _ _ hmat _ _ _ h2
    obtain ⟨s3, di3, c3⟩ := secFields_inv ctx mat selfKey _ _ _ _ _ hmat _ _ _ h3
    obtain ⟨s4, di4, c4⟩ := secFields_inv ctx mat selfKey _ _ _ _ _ hmat _ _ _ h4
    obtain ⟨s5, di5, c5⟩ := secRet_inv ctx mat selfKey _ _ _ _ hmat _ _ _ h5
    obtain ⟨s6, di6, c6⟩ := secRet_inv ctx mat selfKey _ _ _ _ hmat _ _ _ h6
    by_cases hcls : kind = Kind.cls
    · rw [if_pos hcls] at h
      rw [bind_ok_iff] at h
      obtain ⟨⟨cMem, dM, uM⟩, h7, h⟩ := h
      simp only [] at h
      obtain ⟨s7, di7⟩ := hmemb _ _ _ _ h7
      have sTot : used ⊆ uM := fun a ha => s7 (s6 (s5 (s4 (s3 (s2 (s1 ha))))))
      have diTot : DeltaInv used uM (dT ++ dA ++ dP ++ dPa ++ dR ++ dY ++ dM) := by
        have e1 : dT ++ dA ++ dP ++ dPa ++ dR ++ dY ++ dM
            = dT ++ (dA ++ (dP ++ (dPa ++ (dR ++ (dY ++ dM))))) := by simp
        rw [e1]
        refine di1.append ?_ s1 (fun a ha => s7 (s6 (s5 (s4 (s3 (s2 ha))))))
        refine di2.append ?_ s2 (fun a ha => s7 (s6 (s5 (s4 (s3 ha)))))
        refine di3.append ?_ s3 (fun a ha => s7 (s6 (s5 (s4 ha))))
        refine di4.append ?_ s4 (fun a ha => s7 (s6 (s5 ha)))
        refine di5.append ?_ s5 (fun a ha => s7 (s6 ha))
        exact di6.append di7 s6 s7
      revert h
      cases hex : newInfo.examples with
      | none =>
        intro h
        simp only [] at h
        simp only [Except.ok.injEq, Prod.mk.injEq] at h
        obtain ⟨hx, hd, hu⟩ := h
        subst hx; subst hd; subst hu
        exact ⟨sTot, diTot, fun hk => absurd (hcls.symm.trans hk) (by decide)⟩
      | some exs =>
        intro h
        simp only [] at h
        rw [bind_ok_iff] at h
        obtain ⟨exContent, hexc, h⟩ := h
        by_cases hemp : exContent = Sum.inr ""
        · rw [if_pos hemp] at h
          simp only [Except.ok.injEq, Prod.mk.injEq] at h
          obtain ⟨hx, hd, hu⟩ := h
          subst hx; subst hd; subst hu
          exact ⟨sTot, diTot, fun hk => absurd (hcls.symm.trans hk) (by decide)⟩
        · rw [if_neg hemp] at h
          simp only [Except.ok.injEq, Prod.mk.injEq] at h
          obtain ⟨hx, hd, hu⟩ := h
          subst hx; subst hd; subst hu
          exact ⟨sTot, diTot, fun hk => absurd (hcls.symm.trans hk) (by decide)⟩
    · rw [if_neg hcls] at h
      simp only [okBind] at h
      have sTot : used ⊆ uY := fun a ha => s6 (s5 (s4 (s3 (s2 (s1 ha)))))
      have diTot : DeltaInv used uY (dT ++ dA ++ dP ++ dPa ++ dR ++ dY) := by
        have e1 : dT ++ dA ++ dP ++ dPa ++ dR ++ dY
            = dT ++ (dA ++ (dP ++ (dPa ++ (dR ++ dY)))) := by simp
        rw [e1]
        refine di1.append ?_ s1 (fun a ha => s6 (s5 (s4 (s3 (s2 ha)))))
        refine di2.append ?_ s2 (fun a ha => s6 (s5 (s4 (s3 ha))))
        refine di3.append ?_ s3 (fun a ha => s6 (s5 (s4 ha)))
        refine di4.append ?_ s4 (fun a ha => s6 (s5 ha))
        exact di5.append di6 s5 s6
      have hcount : kind = Kind.typedef → depth = 2 →
          ∀ nm, countH3 nm (sectionPre newInfo kind depth
            ++ cType ++ cAug ++ cProps ++ cParams ++ cRet ++ cYld ++ ([] : List Content)) ≤
            if nm = newInfo.name then 1 else 0 := by
        intro hk hdep nm
        subst hk; subst hdep
        have e2 : sectionPre newInfo Kind.typedef 2
            ++ cType ++ cAug ++ cProps ++ cParams ++ cRet ++ cYld ++ ([] : List Content)
            = sectionPre newInfo Kind.typedef 2
              ++ (cType ++ (cAug ++ (cProps ++ (cParams ++ (cRet ++ (cYld ++ [])))))) := by simp
        rw [e2]
        rw [countH3_append, countH3_append, countH3_append, countH3_append, countH3_append,
          countH3_append, countH3_append]
        rw [sectionPre_count_typedef]
        rw [c1 nm, c2 nm, c3 (by decide) nm, c4 (by decide) nm, c5 (by decide) nm,
          c6 (by decide) nm, countH3_nil]
        omega
      revert h
      cases hex : newInfo.examples with
      | none =>
        intro h
        simp only [] at h
        simp only [Except.ok.injEq, Prod.mk.injEq] at h
        obtain ⟨hx, hd, hu⟩ := h
        subst hx; subst hd; subst hu
        exact ⟨sTot, by simpa using diTot, hcount⟩
      | some exs =>
        intro h
        simp only [] at h
        rw [bind_ok_iff] at h
        obtain ⟨exContent, hexc, h⟩ := h
        by_cases hemp : exContent = Sum.inr ""
        · rw [if_pos hemp] at h
          simp only [Except.ok.injEq, Prod.mk.injEq] at h
          obtain ⟨hx, hd, hu⟩ := h
          subst hx; subst hd; subst hu
          exact ⟨sTot, by simpa using diTot, hcount⟩
        · rw [if_neg hemp] at h
          simp only [Except.ok.injEq, Prod.mk.injEq] at h
          obtain ⟨hx, hd, hu⟩ := h
          subst hx; subst hd; subst hu
          refine ⟨sTot, by simpa using diTot, fun hk hdep nm => ?_⟩
          rw [countH3_append]
          have := hcount hk hdep nm
          have hex0 : countH3 nm (examplesSection (hTag (depth + 2)) exContent) = 0 := by
            subst hdep
            exact examplesSection_count _ _ _ (by decide)
          omega

/-- `gtcBody` never reports fuel exhaustion below the budget, given that
the materializer and the member renderer do not. -/
theorem gtcBody_fuel (ctx : Ctx) (mat : Mat) (memb : List String → RRes) (selfKey : Option String)
    (newInfo : EntityData) (kind : Kind) (depth : Nat) (used : List String) (B : Nat)
    (hmat : MatOkInv mat) (hmatF : MatFuelInv ctx mat B)
    (hmembF : ∀ u, unusedCount ctx.docTypes u < B → memb u ≠ .error RErr.fuel)
    (hu : unusedCount ctx.docTypes used < B) :
    gtcBody ctx mat memb selfKey newInfo kind depth used ≠ .error RErr.fuel := by
  intro h
  rw [gtcBody] at h
  by_cases hdir : kind = Kind.typedef ∧ newInfo.dir ≠ some ctx.dir
  · rw [if_pos hdir] at h
    exact Except.noConfusion h
  · rw [if_neg hdir] at h
    rw [bind_err_iff] at h
    rcases h with h | ⟨⟨cType, dT, uT⟩, h1, h⟩
    · exact secType_fuel ctx mat selfKey _ _ _ B hmat hmatF hu h
    simp only [] at h
    have huT : unusedCount ctx.docTypes uT < B :=
      lt_of_le_of_lt
        (unusedCount_le_of_subset _ (secType_inv ctx mat selfKey _ _ _ hmat _ _ _ h1).1) hu
    rw [bind_err_iff] at h
    rcases h with h | ⟨⟨cAug, dA, uA⟩, h2, h⟩
    · exact secAug_fuel ctx mat selfKey _ _ B hmat hmatF huT h
    simp only [] at h
    have huA : unusedCount ctx.docTypes uA < B :=
      lt_of_le_of_lt
        (unusedCount_le_of_subset _ (secAug_inv ctx mat selfKey _ _ hmat _ _ _ h2).1) huT
    rw [bind_err_iff] at h
    rcases h with h | ⟨⟨cProps, dP, uP⟩, h3, h⟩
    · exact secFields_fuel ctx mat selfKey _ _ _ _ _ B hmat hmatF huA h
    simp only [] at h
    have huP : unusedCount ctx.docTypes uP < B :=
      lt_of_le_of_lt
        (unusedCount_le_of_subset _ (secFields_inv ctx mat selfKey _ _ _ _ _ hmat _ _ _ h3).1) huA
    rw [bind_err_iff] at h
    rcases h with h | ⟨⟨cParams, dPa, uPa⟩, h4, h⟩
    · exact secFields_fuel ctx mat selfKey _ _ _ _ _ B hmat hmatF huP h
    simp only [] at h
    have huPa : unusedCount ctx.docTypes uPa < B :=
      lt_of_le_of_lt
        (unusedCount_le_of_subset _ (secFields_inv ctx mat selfKey _ _ _ _ _ hmat _ _ _ h4).1) huP
    rw [bind_err_iff] at h
    rcases h with h | ⟨⟨cRet, dR, uR⟩, h5, h⟩
    · exact secRet_fuel ctx mat selfKey _ _ _ _ B hmat hmatF huPa h
    simp only [] at h
    have huR : unusedCount ctx.docTypes uR < B :=
      lt_of_le_of_lt
        (unusedCount_le_of_subset _ (secRet_inv ctx mat selfKey _ _ _ _ hmat _ _ _ h5).1) huPa
    rw [bind_err_iff] at h
    rcases h with h | ⟨⟨cYld, dY, uY⟩, h6, h⟩
    · exact secRet_fuel ctx mat selfKey _ _ _ _ B hmat hmatF huR h
    simp only [] at h
    have huY : unusedCount ctx.docTypes uY < B :=
      lt_of_le_of_lt
        (unusedCount_le_of_subset _ (secRet_inv ctx mat selfKey _ _ _ _ hmat _ _ _ h6).1) huR
    by_cases hcls : kind = Kind.cls
    · rw [if_pos hcls] at h
      rw [bind_err_iff] at h
      rcases h with h | ⟨⟨cMem, dM, uM⟩, h7, h⟩
      · exact hmembF _ huY h
      simp only [] at h
      revert h
      cases hex : newInfo.examples with
      | none =>
        intro h
        simp only [] at h
        exact Except.noConfusion h
      | some exs =>
        intro h
        simp only [] at h
        rw [bind_err_iff] at h
        rcases h with h | ⟨exContent, -, h⟩
        · exact normalizeExamplesF_no_fuel _ _ _ _ _ _ h
        by_cases hemp : exContent = Sum.inr ""
        · rw [if_pos hemp] at h
          exact Except.noConfusion h
        · rw [if_neg hemp] at h
          exact Except.noConfusion h
    · rw [if_neg hcls] at h
      simp only [okBind] at h
      revert h
      cases hex : newInfo.examples with
      | none =>
        intro h
        simp only [] at h
        exact Except.noConfusion h
      | some exs =>
        intro h
        simp only [] at h
        rw [bind_err_iff] at h
        rcases h with h | ⟨exContent, -, h⟩
        · exact normalizeExamplesF_no_fuel _ _ _ _ _ _ h
        by_cases hemp : exContent = Sum.inr ""
        · rw [if_pos hemp] at h
          exact Except.noConfusion h
        · rw [if_neg hemp] at h
          exact Except.noConfusion h

/-- Joint invariant of successful `gtcF`/`gMembersF` runs, proved by
induction on the fuel and an inner strong induction on the entity size:
the used set grows, the types delta satisfies the materialize-once
invariant, and on the materialization path (typedef at depth 2) the
section carries at most one `h3` heading, the entity's own. -/
theorem gtc_inv_all (fuel : Nat) : ∀ (k : Nat),
    (∀ (ctx : Ctx) (selfKey : Option String) (info : Entity), sizeOf info ≤ k →
       ∀ (kind : Kind) (depth : Nat) (used : List String) (x d : List Content)
         (u2 : List String),
         gtcF fuel ctx selfKey info kind depth used = .ok (x, d, u2) →
         used ⊆ u2 ∧ DeltaInv used u2 d ∧
           (kind = Kind.typedef → depth = 2 →
             ∀ nm, countH3 nm x ≤ if nm = info.data.name then 1 else 0))
    ∧ (∀ (ctx : Ctx) (depth : Nat) (members : List Entity), sizeOf members ≤ k →
       ∀ (hasP hasM : Bool) (used : List String) (x d : List Content) (u2 : List String),
         gMembersF fuel ctx depth members hasP hasM used = .ok (x, d, u2) →
         used ⊆ u2 ∧ DeltaInv used u2 d) := by
  induction fuel with
  | zero =>
    intro k
    induction k using Nat.strong_induction_on with
    | _ k ihk =>
      constructor
      · intro ctx selfKey info hsz kind depth used x d u2 h
        rw [gtcF] at h
        have hmat : MatOkInv (fun _ _ _ => (.error RErr.fuel : RRes)) := by
          intro dt tok u1 x1 d1 u3 hh
          exact Except.noConfusion hh
        have hmemb : ∀ u x1 d1 u3,
            gMembersF 0 ctx depth info.members false false u = .ok (x1, d1, u3) →
            u ⊆ u3 ∧ DeltaInv u u3 d1 := by
          intro u x1 d1 u3 hh
          have hm : sizeOf info.members < k :=
            lt_of_lt_of_le (Entity.sizeOf_members_lt info) hsz
          exact (ihk _ hm).2 ctx depth info.members (le_refl _) false false u x1 d1 u3 hh
        obtain ⟨hs, hd, hc⟩ := gtcBody_inv ctx _ _ selfKey _ kind depth used hmat hmemb x d u2 h
        refine ⟨hs, hd, fun hk hdep nm => ?_⟩
        have hb := hc hk hdep nm
        subst hk
        rwa [effInfo_typedef] at hb
      · intro ctx depth members hsz hasP hasM used x d u2 h
        cases members with
        | nil =>
          rw [gMembersF] at h
          simp only [Except.ok.injEq, Prod.mk.injEq] at h
          obtain ⟨-, hd, hu⟩ := h
          subst hd; subst hu
          exact ⟨fun a ha => ha, deltaInv_nil _ _⟩
        | cons m rest =>
          rw [gMembersF] at h
          rw [bind_ok_iff] at h
          obtain ⟨⟨sec, d1, u1⟩, h1, h⟩ := h
          simp only [] at h
          rw [bind_ok_iff] at h
          obtain ⟨⟨csRest, d2, u3⟩, h2, h⟩ := h
          simp only [Except.ok.injEq, Prod.mk.injEq] at h
          obtain ⟨hx, hd, hu⟩ := h
          subst hx; subst hd; subst hu
          have hm1 : sizeOf m < k := by
            have := List.cons.sizeOf_spec m rest
            omega
          have hm2 : sizeOf rest < k := by
            have := List.cons.sizeOf_spec m rest
            omega
          obtain ⟨s1, di1, -⟩ :=
            (ihk _ hm1).1 ctx none m (le_refl _) _ (depth + 2) used sec d1 u1 h1
          obtain ⟨s2, di2⟩ :=
            (ihk _ hm2).2 ctx depth rest (le_refl _) _ _ u1 csRest d2 u3 h2
          exact ⟨fun a ha => s2 (s1 ha), di1.append di2 s1 s2⟩
  | succ f ihf =>
    intro k
    induction k using Nat.strong_induction_on with
    | _ k ihk =>
      constructor
      · intro ctx selfKey info hsz kind depth used x d u2 h
        rw [gtcF] at h
        have hmat : MatOkInv (fun dt tok u1 => gtcF f ctx (some tok) dt Kind.typedef 2 u1) := by
          intro dt tok u1 x1 d1 u3 hh
          obtain ⟨a, b, c⟩ :=
            (ihf (sizeOf dt)).1 ctx (some tok) dt (le_refl _) Kind.typedef 2 u1 x1 d1 u3 hh
          exact ⟨a, b, c rfl rfl⟩
        have hmemb : ∀ u x1 d1 u3,
            gMembersF (f + 1) ctx depth info.members false false u = .ok (x1, d1, u3) →
            u ⊆ u3 ∧ DeltaInv u u3 d1 := by
          intro u x1 d1 u3 hh
          have hm : sizeOf info.members < k :=
            lt_of_lt_of_le (Entity.sizeOf_members_lt info) hsz
          exact (ihk _ hm).2 ctx depth info.members (le_refl _) false false u x1 d1 u3 hh
        obtain ⟨hs, hd, hc⟩ := gtcBody_inv ctx _ _ selfKey _ kind depth used hmat hmemb x d u2 h
        refine ⟨hs, hd, fun hk hdep nm => ?_⟩
        have hb := hc hk hdep nm
        subst hk
        rwa [effInfo_typedef] at hb
      · intro ctx depth members hsz hasP hasM used x d u2 h
        cases members with
        | nil =>
          rw [gMembersF] at h
          simp only [Except.ok.injEq, Prod.mk.injEq] at h
          obtain ⟨-, hd, hu⟩ := h
          subst hd; subst hu
          exact ⟨fun a ha => ha, deltaInv_nil _ _⟩
        | cons m rest =>
          rw [gMembersF] at h
          rw [bind_ok_iff] at h
          obtain ⟨⟨sec, d1, u1⟩, h1, h⟩ := h
          simp only [] at h
          rw [bind_ok_iff] at h
          obtain ⟨⟨csRest, d2, u3⟩, h2, h⟩ := h
          simp only [Except.ok.injEq, Prod.mk.injEq] at h
          obtain ⟨hx, hd, hu⟩ := h
          subst hx; subst hd; subst hu
          have hm1 : sizeOf m < k := by
            have := List.cons.sizeOf_spec m rest
            omega
          have hm2 : sizeOf rest < k := by
            have := List.cons.sizeOf_spec m rest
            omega
          obtain ⟨s1, di1, -⟩ :=
            (ihk _ hm1).1 ctx none m (le_refl _) _ (depth + 2) used sec d1 u1 h1
          obtain ⟨s2, di2⟩ :=
            (ihk _ hm2).2 ctx depth rest (le_refl _) _ _ u1 csRest d2 u3 h2
          exact ⟨fun a ha => s2 (s1 ha), di1.append di2 s1 s2⟩

/-- Invariant of a successful `getTypeContent` run (corollary of the joint
induction). -/
theorem gtcF_inv (fuel : Nat) (ctx : Ctx) (selfKey : Option String) (info : Entity) (kind : Kind)
    (depth : Nat) (used : List String) (x d : List Content) (u2 : List String)
    (h : gtcF fuel ctx selfKey info kind depth used = .ok (x, d, u2)) :
    used ⊆ u2 ∧ DeltaInv used u2 d ∧
      (kind = Kind.typedef → depth = 2 →
        ∀ nm, countH3 nm x ≤ if nm = info.data.name then 1 else 0) :=
  (gtc_inv_all fuel (sizeOf info)).1 ctx selfKey info (le_refl _) kind depth used x d u2 h

/-- Joint no-fuel-exhaustion lemma: below the budget (the number of
registered-but-unused type names), neither `gtcF` nor `gMembersF` reports
fuel exhaustion. -/
theorem gtc_fuel_all (fuel : Nat) : ∀ (k : Nat),
    (∀ (ctx : Ctx) (selfKey : Option String) (info : Entity), sizeOf info ≤ k →
       ∀ (kind : Kind) (depth : Nat) (used : List String),
         unusedCount ctx.docTypes used < fuel →
         gtcF fuel ctx selfKey info kind depth used ≠ .error RErr.fuel)
    ∧ (∀ (ctx : Ctx) (depth : Nat) (members : List Entity), sizeOf members ≤ k →
       ∀ (hasP hasM : Bool) (used : List String),
         unusedCount ctx.docTypes used < fuel →
         gMembersF fuel ctx depth members hasP hasM used ≠ .error RErr.fuel) := by
  induction fuel with
  | zero =>
    intro k
    constructor
    · intro ctx selfKey info hsz kind depth used hu
      exact absurd hu (by omega)
    · intro ctx depth members hsz hasP hasM used hu
      exact absurd hu (by omega)
  | succ f ihf =>
    intro k
    induction k using Nat.strong_induction_on with
    | _ k ihk =>
      constructor
      · intro ctx selfKey info hsz kind depth used hu h
        rw [gtcF] at h
        have hmat : MatOkInv (fun dt tok u1 => gtcF f ctx (some tok) dt Kind.typedef 2 u1) := by
          intro dt tok u1 x1 d1 u3 hh
          obtain ⟨a, b, c⟩ :=
            (gtc_inv_all f (sizeOf dt)).1 ctx (some tok) dt (le_refl _) Kind.typedef 2 u1
              x1 d1 u3 hh
          exact ⟨a, b, c rfl rfl⟩
        have hmatF : MatFuelInv ctx
            (fun dt tok u1 => gtcF f ctx (some tok) dt Kind.typedef 2 u1) (f + 1) := by
          intro dt tok u1 hle
          exact (ihf (sizeOf dt)).1 ctx (some tok) dt (le_refl _) Kind.typedef 2 u1 (by omega)
        have hmembF : ∀ u, unusedCount ctx.docTypes u < f + 1 →
            gMembersF (f + 1) ctx depth info.members false false u ≠ .error RErr.fuel := by
          intro u hul
          have hm : sizeOf info.members < k :=
            lt_of_lt_of_le (Entity.sizeOf_members_lt info) hsz
          exact (ihk _ hm).2 ctx depth info.members (le_refl _) false false u hul
        exact gtcBody_fuel ctx _ _ selfKey _ kind depth used (f + 1) hmat hmatF hmembF hu h
      · intro ctx depth members hsz hasP hasM used hu h
        cases members with
        | nil =>
          rw [gMembersF] at h
          exact Except.noConfusion h
        | cons m rest =>
          rw [gMembersF] at h
          rw [bind_err_iff] at h
          have hm1 : sizeOf m < k := by
            have := List.cons.sizeOf_spec m rest
            omega
          have hm2 : sizeOf rest < k := by
            have := List.cons.sizeOf_spec m rest
            omega
          rcases h with h | ⟨⟨sec, d1, u1⟩, h1, h⟩
          · exact (ihk _ hm1).1 ctx none m (le_refl _) _ (depth + 2) used hu h
          simp only [] at h
          rw [bind_err_iff] at h
          rcases h with h | ⟨⟨csRest, d2, u3⟩, h2, h⟩
          · have hs1 := ((gtc_inv_all (f + 1) (sizeOf m)).1 ctx none m (le_refl _) _
              (depth + 2) used sec d1 u1 h1).1
            exact (ihk _ hm2).2 ctx depth rest (le_refl _) _ _ u1
              (lt_of_le_of_lt (unusedCount_le_of_subset _ hs1) hu) h
          · simp only [] at h
            exact Except.noConfusion h

/-- `getTypeContent` never reports fuel exhaustion when the budget exceeds
the number of registered-but-unused type names (corollary of the joint
induction). -/
theorem gtcF_fuel (fuel : Nat) (ctx : Ctx) (selfKey : Option String) (info : Entity) (kind : Kind)
    (depth : Nat) (used : List String) (hu : unusedCount ctx.docTypes used < fuel) :
    gtcF fuel ctx selfKey info kind depth used ≠ .error RErr.fuel :=
  (gtc_fuel_all fuel (sizeOf info)).1 ctx selfKey info (le_refl _) kind depth used hu

/-! ## Decidable equality of results and navigation items -/

/-- Decidable equality of `Except` results (hand-rolled; core derives none
for `Except`). -/
def decEqExcept {α : Type} [DecidableEq α] : (a b : Except RErr α) → Decidable (a = b)
  | .error a, .error b =>
    match decEq a b with
    | isTrue h => isTrue (by rw [h])
    | isFalse h => isFalse (by intro he; injection he; contradiction)
  | .error e1, .ok a1 => isFalse (fun h => Except.noConfusion h)
  | .ok a1, .error e1 => isFalse (fun h => Except.noConfusion h)
  | .ok a, .ok b =>
    match decEq a b with
    | isTrue h => isTrue (by rw [h])
    | isFalse h => isFalse (by intro he; injection he; contradiction)

instance {α : Type} [DecidableEq α] : DecidableEq (Except RErr α) := decEqExcept

mutual

/-- Decidable equality for navigation items (hand-rolled because of the
nested `List NavItem`). -/
def decEqNavItem : (a b : NavItem) → Decidable (a = b)
  | NavItem.mk i1 t1 l1 c1, NavItem.mk i2 t2 l2 c2 =>
    match decEq i1 i2, decEq t1 t2, decEq l1 l2, decEqNavItemList c1 c2 with
    | isTrue h1, isTrue h2, isTrue h3, isTrue h4 => isTrue (by rw [h1, h2, h3, h4])
    | isFalse h1, _, _, _ => isFalse (by intro h; injection h; contradiction)
    | _, isFalse h2, _, _ => isFalse (by intro h; injection h; contradiction)
    | _, _, isFalse h3, _ => isFalse (by intro h; injection h; contradiction)
    | _, _, _, isFalse h4 => isFalse (by intro h; injection h; contradiction)

/-- Decidable equality for navigation-item lists. -/
def decEqNavItemList : (a b : List NavItem) → Decidable (a = b)
  | [], [] => isTrue rfl
  | [], _ :: _ => isFalse (fun h => List.noConfusion h)
  | _ :: _, [] => isFalse (fun h => List.noConfusion h)
  | a :: as, b :: bs =>
    match decEqNavItem a b, decEqNavItemList as bs with
    | isTrue h1, isTrue h2 => isTrue (by rw [h1, h2])
    | isFalse h1, _ => isFalse (by intro h; injection h; contradiction)
    | _, isFalse h2 => isFalse (by intro h; injection h; contradiction)

end

instance : DecidableEq NavItem := decEqNavItem

/-- Number of (possibly overlapping) occurrences of a pattern in a
character list. -/
def countOcc (pat : List Char) : List Char → Nat
  | [] => 0
  | c :: cs => (if pat.isPrefixOf (c :: cs) then 1 else 0) + countOcc pat cs

/-- Introduction form for evaluating a monadic bind against a known
intermediate value. -/
theorem bindOkIntro {α β : Type} {m : Except RErr α} {f : α → Except RErr β} {b : β}
    (a : α) (h1 : m = .ok a) (h2 : f a = .ok b) : m >>= f = .ok b := by
  rw [h1, okBind, h2]

/-! ## Concrete scenarios

`eA`/`eB`: two same-directory typedefs referencing each other (the mutual
scenario of the spec).  `eX`/`eY`: a typedef referencing a typedef of
*another* directory twice.  `eE`: a typedef with an example whose code
body is a file reference, used with a failing filesystem. -/

def eA : Entity := .mk { name := "A", id := "a", type := ["B"], dir := some "pkg" } []

def eB : Entity := .mk { name := "B", id := "b", type := ["A"], dir := some "pkg" } []

def ctxAB : Ctx := { docTypes := [("A", eA), ("B", eB)], dir := "pkg", url := "u",
                     rt := RenderType.markdown, fs := fun _ _ => none, hl := fun _ c => c }

/-- The materializer `gtcF 2 ctxAB` actually uses: recursion at budget 1. -/
def matAB1 : Mat := fun dt tok u1 => gtcF 1 ctxAB (some tok) dt Kind.typedef 2 u1

/-- The rendered section of `B` (materialized while resolving `A`). -/
def secBlit : List Content :=
  [Content.str (some "h3") none "B",
   Content.arr (some "p") none
     [Content.str (some "strong") none "Type:",
      Content.str none none " ",
      Content.arr (some "code") none
        [Content.arr none none [Content.str (some "a") (some "#a") "A"]]]]

/-- The rendered section of `A`. -/
def secAlit : List Content :=
  [Content.str (some "h3") none "A",
   Content.arr (some "p") none
     [Content.str (some "strong") none "Type:",
      Content.str none none " ",
      Content.arr (some "code") none
        [Content.arr none none [Content.str (some "a") (some "#b") "B"]]]]

/-- Resolving `B` (with `A` already used) emits only a link to `A` and
materializes nothing. -/
theorem evB : gtcF 1 ctxAB (some "B") eB Kind.typedef 2 ["A", "B"]
    = .ok (secBlit, [], ["A", "B"]) := by
  rw [gtcF]
  decide

/-- Token loop of `A`'s type names: the reference to `B` materializes
`B`'s section. -/
theorem gctPA : gctP ctxAB matAB1 (some "A") ["B"] ["B"] ["A"]
    = .ok ([Content.str (some "a") (some "#b") "B"], secBlit, ["A", "B"]) := by
  rw [gctP]
  rw [if_pos (show ("B" : String) ∈ ["B"] by decide)]
  rw [show lookupType ctxAB.docTypes "B" = some eB from rfl]
  simp only []
  rw [if_neg (show ¬ ((some "A" : Option String) = some "B") by decide)]
  rw [if_neg (show ¬ (eB.data.name ∈ ["A"]) by decide)]
  refine bindOkIntro (secBlit, [], ["A", "B"]) evB ?_
  simp only []
  refine bindOkIntro ([], [], ["A", "B"]) (by decide) ?_
  simp only []
  decide

/-- The type-name loop of `A`. -/
theorem gcnPA : gcnP ctxAB matAB1 (some "A") ["B"] ["A"] []
    = .ok ([Content.arr none none [Content.str (some "a") (some "#b") "B"]],
           secBlit, ["A", "B"]) := by
  rw [gcnP]
  rw [if_neg (show ¬ ((typeMatches "B").isEmpty = true) by decide)]
  refine bindOkIntro ([Content.str (some "a") (some "#b") "B"], secBlit, ["A", "B"]) gctPA ?_
  simp only []
  refine bindOkIntro
    ([Content.arr none none [Content.str (some "a") (some "#b") "B"]], [], ["A", "B"])
    (by decide) ?_
  simp only []
  decide

/-- The full `getTypeContent` run of `A` at budget 2: `A`'s own section,
with `B`'s section as the materialized delta. -/
theorem evA : gtcF 2 ctxAB (some "A") eA Kind.typedef 2 ["A"]
    = .ok (secAlit, secBlit, ["A", "B"]) := by
  rw [gtcF]
  show gtcBody ctxAB matAB1
      (fun u => gMembersF 2 ctxAB 2 eA.members false false u)
      (some "A") (effInfo ctxAB eA Kind.typedef) Kind.typedef 2 ["A"] = _
  rw [gtcBody]
  rw [if_neg (show ¬ (Kind.typedef = Kind.typedef
        ∧ (effInfo ctxAB eA Kind.typedef).dir ≠ some ctxAB.dir) by decide)]
  refine bindOkIntro
    ([labeledCode "Type:"
        [Content.arr none none [Content.str (some "a") (some "#b") "B"]]],
      secBlit, ["A", "B"]) ?_ ?_
  · rw [secType]
    rw [if_pos (show decide (Kind.typedef = Kind.typedef) = true by decide)]
    refine bindOkIntro
      ([Content.arr none none [Content.str (some "a") (some "#b") "B"]],
        secBlit, ["A", "B"]) gcnPA ?_
    simp only []
  · simp only []
    refine bindOkIntro ([], [], ["A", "B"]) (by decide) ?_
    simp only []
    refine bindOkIntro ([], [], ["A", "B"]) (by decide) ?_
    simp only []
    refine bindOkIntro ([], [], ["A", "B"]) (by decide) ?_
    simp only []
    refine bindOkIntro ([], [], ["A", "B"]) (by decide) ?_
    simp only []
    refine bindOkIntro ([], [], ["A", "B"]) (by decide) ?_
    simp only []
    rw [if_neg (show ¬ (Kind.typedef = Kind.cls) by decide)]
    simp only [okBind]
    decide

/-- The unit loop over `[A, B]`: `A` materializes `B`; the later item `B`
is skipped because its name is already used. -/
theorem evItemsAB : unitItemsF 2 ctxAB [] true [("A", Kind.typedef), ("B", Kind.typedef)]
    [] [] [] [] = .ok ([] ++ secBlit ++ secAlit, [], ["A", "B"], []) := by
  rw [unitItemsF]
  rw [if_pos (show Kind.typedef = Kind.typedef from rfl)]
  rw [show lookupType ctxAB.docTypes "A" = some eA from rfl]
  simp only []
  rw [if_neg (show ¬ (("A" : String) ∈ ([] : List String)) by decide)]
  refine bindOkIntro (secAlit, secBlit, ["A", "B"]) evA ?_
  simp only []
  rw [unitItemsF]
  rw [if_pos (show Kind.typedef = Kind.typedef from rfl)]
  rw [show lookupType ctxAB.docTypes "B" = some eB from rfl]
  simp only []
  rw [if_pos (show ("B" : String) ∈ ["A", "B"] by decide)]
  rw [unitItemsF]

/-- The unit's `Types` block for the mutual `A`/`B` scenario. -/
theorem evAB : unitTypesF 2 ctxAB [] true [("A", Kind.typedef), ("B", Kind.typedef)]
    = .ok (Content.str (some "h2") none "Types" :: (secBlit ++ secAlit)) := by
  rw [unitTypesF]
  refine bindOkIntro ([] ++ secBlit ++ secAlit, [], ["A", "B"], []) evItemsAB ?_
  simp only []
  decide

/-! The cross-directory scenario, parameterized by the render type. -/

def eX : Entity := .mk { name := "X", id := "x", type := ["string"], dir := some "other" } []

def eY : Entity := .mk { name := "Y", id := "y", type := ["X", "X"], dir := some "pkg" } []

def ctx9 (rt : RenderType) : Ctx :=
  { docTypes := [("X", eX), ("Y", eY)], dir := "pkg", url := "u",
    rt := rt, fs := fun _ _ => none, hl := fun _ c => c }

def mat91 (rt : RenderType) : Mat :=
  fun dt tok u1 => gtcF 1 (ctx9 rt) (some tok) dt Kind.typedef 2 u1

/-- The link emitted for a reference to the cross-directory type `X`. -/
def xLink (rt : RenderType) : String := refLink rt "u" "pkg" eX.data

/-- The reference link node to `X`. -/
def aX (rt : RenderType) : Content := Content.str (some "a") (some (xLink rt)) "X"

/-- Materializing the cross-directory type `X` produces no content at all
(docs.ts 2131): the guard returns before rendering anything. -/
theorem evX (rt : RenderType) : gtcF 1 (ctx9 rt) (some "X") eX Kind.typedef 2 ["Y", "X"]
    = .ok ([], [], ["Y", "X"]) := by
  rw [gtcF]
  rfl

/-- First reference to `X` from `Y`: link node, empty materialization. -/
theorem gctP9a (rt : RenderType) :
    gctP (ctx9 rt) (mat91 rt) (some "Y") ["X"] ["X"] ["Y"]
      = .ok ([aX rt], [], ["Y", "X"]) := by
  rw [gctP]
  rw [if_pos (show ("X" : String) ∈ ["X"] by decide)]
  rw [show lookupType (ctx9 rt).docTypes "X" = some eX from rfl]
  simp only []
  rw [if_neg (show ¬ ((some "Y" : Option String) = some "X") by decide)]
  rw [if_neg (show ¬ (eX.data.name ∈ ["Y"]) by decide)]
  refine bindOkIntro ([], [], ["Y", "X"]) (evX rt) ?_
  simp only []
  refine bindOkIntro ([], [], ["Y", "X"]) rfl ?_
  simp only []
  rfl

/-- Second reference to `X`: `X` is already used, so only a link node is
emitted. -/
theorem gctP9b (rt : RenderType) :
    gctP (ctx9 rt) (mat91 rt) (some "Y") ["X"] ["X"] ["Y", "X"]
      = .ok ([aX rt], [], ["Y", "X"]) := by
  rw [gctP]
  rw [if_pos (show ("X" : String) ∈ ["X"] by decide)]
  rw [show lookupType (ctx9 rt).docTypes "X" = some eX from rfl]
  simp only []
  rw [if_neg (show ¬ ((some "Y" : Option String) = some "X") by decide)]
  rw [if_pos (show eX.data.name ∈ ["Y", "X"] by decide)]
  refine bindOkIntro ([], [], ["Y", "X"]) rfl ?_
  simp only []
  rfl

/-- The second iteration of the type-name loop of `Y`. -/
theorem gcnP9tail (rt : RenderType) :
    gcnP (ctx9 rt) (mat91 rt) (some "Y") ["X"] ["Y", "X"] [Content.arr none none [aX rt]]
      = .ok ([Content.arr none none [aX rt], Content.str none none " | ",
              Content.arr none none [aX rt]], [], ["Y", "X"]) := by
  rw [gcnP]
  rw [if_neg (show ¬ ((typeMatches "X").isEmpty = true) by decide)]
  refine bindOkIntro ([aX rt], [], ["Y", "X"]) ?t1 ?t2
  case t1 => exact gctP9b rt
  case t2 =>
    simp only []
    refine bindOkIntro
      ([Content.arr none none [aX rt], Content.str none none " | ",
        Content.arr none none [aX rt]], [], ["Y", "X"]) ?t3 ?t4
    case t3 => rfl
    case t4 =>
      simp only []
      rfl

/-- The type-name loop of `Y` over its two references to `X`. -/
theorem gcnP9 (rt : RenderType) :
    gcnP (ctx9 rt) (mat91 rt) (some "Y") ["X", "X"] ["Y"] []
      = .ok ([Content.arr none none [aX rt], Content.str none none " | ",
              Content.arr none none [aX rt]], [], ["Y", "X"]) := by
  rw [gcnP]
  rw [if_neg (show ¬ ((typeMatches "X").isEmpty = true) by decide)]
  refine bindOkIntro ([aX rt], [], ["Y", "X"]) ?u1 ?u2
  case u1 => exact gctP9a rt
  case u2 =>
    simp only []
    refine bindOkIntro
      ([Content.arr none none [aX rt], Content.str none none " | ",
        Content.arr none none [aX rt]], [], ["Y", "X"]) ?u3 ?u4
    case u3 => exact gcnP9tail rt
    case u4 =>
      simp only []
      rfl

/-- The rendered section of `Y` (its `Type:` paragraph links to `X`
twice; `X` is never materialized). -/
def secYlit (rt : RenderType) : List Content :=
  [Content.str (some "h3") none "Y",
   Content.arr (some "p") none
     [Content.str (some "strong") none "Type:",
      Content.str none none " ",
      Content.arr (some "code") none
        [Content.arr none none [aX rt], Content.str none none " | ",
         Content.arr none none [aX rt]]]]

/-- The full `getTypeContent` run of `Y`. -/
theorem evY (rt : RenderType) : gtcF 2 (ctx9 rt) (some "Y") eY Kind.typedef 2 ["Y"]
    = .ok (secYlit rt, [], ["Y", "X"]) := by
  rw [gtcF]
  show gtcBody (ctx9 rt) (mat91 rt)
      (fun u => gMembersF 2 (ctx9 rt) 2 eY.members false false u)
      (some "Y") (effInfo (ctx9 rt) eY Kind.typedef) Kind.typedef 2 ["Y"] = _
  rw [gtcBody]
  rw [if_neg (show ¬ (Kind.typedef = Kind.typedef
        ∧ (effInfo (ctx9 rt) eY Kind.typedef).dir ≠ some (ctx9 rt).dir) from fun h => h.2 rfl)]
  refine bindOkIntro
    ([labeledCode "Type:"
        [Content.arr none none [aX rt], Content.str none none " | ",
         Content.arr none none [aX rt]]], [], ["Y", "X"]) ?_ ?_
  · rw [secType]
    rw [if_pos (show decide (Kind.typedef = Kind.typedef) = true by decide)]
    refine bindOkIntro
      ([Content.arr none none [aX rt], Content.str none none " | ",
        Content.arr none none [aX rt]], [], ["Y", "X"]) (gcnP9 rt) ?_
    simp only []
  · simp only []
    refine bindOkIntro ([], [], ["Y", "X"]) rfl ?_
    simp only []
    refine bindOkIntro ([], [], ["Y", "X"]) rfl ?_
    simp only []
    refine bindOkIntro ([], [], ["Y", "X"]) rfl ?_
    simp only []
    refine bindOkIntro ([], [], ["Y", "X"]) rfl ?_
    simp only []
    refine bindOkIntro ([], [], ["Y", "X"]) rfl ?_
    simp only []
    rw [if_neg (show ¬ (Kind.typedef = Kind.cls) by decide)]
    simp only [okBind]
    rfl

/-- The unit loop over `[Y]`. -/
theorem evItems9 (rt : RenderType) :
    unitItemsF 2 (ctx9 rt) [] true [("Y", Kind.typedef)] [] [] [] []
      = .ok ([] ++ [] ++ secYlit rt, [], ["Y", "X"], []) := by
  rw [unitItemsF]
  rw [if_pos (show Kind.typedef = Kind.typedef from rfl)]
  rw [show lookupType (ctx9 rt).docTypes "Y" = some eY from rfl]
  simp only []
  rw [if_neg (show ¬ (("Y" : String) ∈ ([] : List String)) by decide)]
  refine bindOkIntro (secYlit rt, [], ["Y", "X"]) (evY rt) ?_
  simp only []
  rw [unitItemsF]

/-- The unit's `Types` block of the cross-directory scenario. -/
def ty9 (rt : RenderType) : List Content :=
  Content.str (some "h2") none "Types" :: secYlit rt

/-- The rendered unit depends on the render type only through the
reference links. -/
theorem evU9 (rt : RenderType) :
    unitTypesF 2 (ctx9 rt) [] true [("Y", Kind.typedef)] = .ok (ty9 rt) := by
  rw [unitTypesF]
  refine bindOkIntro ([] ++ [] ++ secYlit rt, [], ["Y", "X"], []) (evItems9 rt) ?_
  simp only []
  rfl

/-! The failing-example scenario. -/

def eE : Entity := .mk { name := "E", id := "e", type := ["string"], dir := some "pkg",
                         examples := some [".x"] } []

def ctxE : Ctx := { docTypes := [("E", eE)], dir := "pkg", url := "u",
                    rt := RenderType.html, fs := fun _ _ => none, hl := fun _ c => c }

/-- When the file read behind the example `.x` fails, the whole
`getTypeContent` run of `E` fails: nothing catches the rejection. -/
theorem evE : gtcF 1 ctxE (some "E") eE Kind.typedef 2 ["E"] = .error RErr.file := by
  rw [gtcF]
  decide

/-! The duplicate-heading page: an `h1` and an `h2` with the same text. -/

/-- Walking the `h1`: the title is set, the id is *not* registered into
`_ids` (docs.ts only adds the id in the non-`h1` branch). -/
theorem gh1 : getHtml (tnode "h1" "Foo") "" ⟨"", "", [], []⟩
    = ⟨"<h1 id=\"foo\">Foo<a href=\"#foo\" aria-label=\"Permalink: Foo\">#</a></h1>",
       "Foo", [], []⟩ := by
  rw [getHtml.eq_def]
  decide

/-- Walking the `h2` afterwards: `foo` is still free, so the `h2` gets the
same id the `h1` already emitted. -/
theorem gh2 : getHtml (tnode "h2" "Foo") ""
    ⟨"<h1 id=\"foo\">Foo<a href=\"#foo\" aria-label=\"Permalink: Foo\">#</a></h1>",
     "Foo", [], []⟩
    = ⟨"<h1 id=\"foo\">Foo<a href=\"#foo\" aria-label=\"Permalink: Foo\">#</a></h1>"
        ++ "<h2 id=\"foo\">Foo<a href=\"#foo\" aria-label=\"Permalink: Foo\">#</a></h2>",
       "Foo", [Heading.mk "foo" "Foo" "h2" []], ["foo"]⟩ := by
  rw [getHtml.eq_def]
  decide

/-- The two-node walk. -/
theorem ghL : getHtmlList [tnode "h1" "Foo", tnode "h2" "Foo"] "" ⟨"", "", [], []⟩
    = ⟨"<h1 id=\"foo\">Foo<a href=\"#foo\" aria-label=\"Permalink: Foo\">#</a></h1>"
        ++ "<h2 id=\"foo\">Foo<a href=\"#foo\" aria-label=\"Permalink: Foo\">#</a></h2>",
       "Foo", [Heading.mk "foo" "Foo" "h2" []], ["foo"]⟩ := by
  rw [getHtmlList]
  rw [gh1]
  rw [getHtmlList]
  rw [gh2]
  rw [getHtmlList]

/-- The page render of `[h1 "Foo", h2 "Foo"]`. -/
theorem pageFoo : getHtmlTop (Content.arr none none [tnode "h1" "Foo", tnode "h2" "Foo"])
    = ⟨"<h1 id=\"foo\">Foo<a href=\"#foo\" aria-label=\"Permalink: Foo\">#</a></h1>"
        ++ "<h2 id=\"foo\">Foo<a href=\"#foo\" aria-label=\"Permalink: Foo\">#</a></h2>",
       "Foo", [Heading.mk "foo" "Foo" "h2" []], ["foo"]⟩ := by
  rw [getHtmlTop]
  rw [getHtml.eq_def]
  show { getHtmlList [tnode "h1" "Foo", tnode "h2" "Foo"] "" ⟨"", "", [], []⟩ with
      output := (getHtmlList [tnode "h1" "Foo", tnode "h2" "Foo"] "" ⟨"", "", [], []⟩).output
        ++ "" } = _
  rw [ghL]
  decide

/-! The navigation fixture: three chained directories. -/

def navA : NavItem := NavItem.mk "a" "A" "/a/" []

def navB : NavItem := NavItem.mk "a-b" "B" "/a/b/" []

def navC : NavItem := NavItem.mk "a-b-c" "C" "/a/b/c/" []

/-! ## Lemmas about the type-name flattening (claim C5) -/

theorem isPrefixOf_append_self : ∀ (p t : List Char), p.isPrefixOf (p ++ t) = true := by
  intro p
  induction p with
  | nil => intro t; simp [List.isPrefixOf]
  | cons c cs ih => intro t; simp [List.isPrefixOf, ih]

theorem takeWhile_all {p : Char → Bool} :
    ∀ l : List Char, (∀ c ∈ l, p c = true) → l.takeWhile p = l := by
  intro l
  induction l with
  | nil => intro h; rfl
  | cons c cs ih =>
    intro h
    rw [List.takeWhile_cons, if_pos (h c (by simp))]
    rw [ih (fun x hx => h x (List.mem_cons_of_mem _ hx))]

/-- The global `/.</g` pass is the identity on strings without `<`. -/
theorem dotLt_no_lt : ∀ l : List Char, (∀ c ∈ l, c ≠ '<') → dotLt l = l
  | [], _ => rfl
  | [c], _ => rfl
  | c :: d :: rest, h => by
    have hd : d ≠ '<' := h d (by simp)
    rw [dotLt, if_neg (by simp [hd]),
      dotLt_no_lt (d :: rest) (fun x hx => h x (List.mem_cons_of_mem _ hx))]

/-- The greedy completion of the `Array.<…>` match when the payload has no
newline and no `>`. -/
theorem greedyClose_simple (item : List Char) (hne : item ≠ [])
    (hcl : ∀ c ∈ item, c ≠ '\n' ∧ c ≠ '>') :
    greedyClose (item ++ ['>']) = some (item, []) := by
  rw [greedyClose]
  have h1 : (item ++ ['>']).takeWhile (fun c => c ≠ '\n') = item ++ ['>'] := by
    apply takeWhile_all
    intro c hc
    rcases List.mem_append.mp hc with hc | hc
    · simp [(hcl c hc).1]
    · simp at hc
      subst hc
      decide
  rw [h1]
  have h2 : (item ++ ['>']).reverse = '>' :: item.reverse := by
    rw [List.reverse_append]
    rfl
  rw [h2]
  rw [List.findIdx?_cons]
  rw [if_pos (by decide)]
  simp only []
  have hlen : (item ++ ['>']).length - 1 - 0 = item.length := by
    rw [List.length_append]
    simp
  rw [hlen]
  rw [if_pos (by
    have := List.length_pos.mpr hne
    omega)]
  rw [List.take_left]
  have h3 : (item ++ ['>']).drop (item.length + 1) = [] := by
    rw [show item.length + 1 = (item ++ ['>']).length from by rw [List.length_append]; rfl]
    exact List.drop_length _
  rw [h3]

/-- First-occurrence replacement of `Array\.<(.+)>`: on an input that is
exactly the literal notation, the payload is rewritten to `item[]`. -/
theorem replaceArrayOnce_array (item : List Char) (hne : item ≠ [])
    (hcl : ∀ c ∈ item, c ≠ '\n' ∧ c ≠ '>') :
    replaceArrayOnce (arrayAngle ++ (item ++ ['>'])) = item ++ "[]".data := by
  show replaceArrayOnce ('A' :: ("rray.<".data ++ (item ++ ['>']))) = _
  rw [replaceArrayOnce]
  rw [if_pos (show arrayAngle.isPrefixOf ('A' :: ("rray.<".data ++ (item ++ ['>']))) = true
    from isPrefixOf_append_self arrayAngle (item ++ ['>']))]
  rw [show ('A' :: ("rray.<".data ++ (item ++ ['>']))).drop arrayAngle.length = item ++ ['>']
    from by
      show ((arrayAngle ++ (item ++ ['>'])).drop arrayAngle.length) = item ++ ['>']
      rw [List.drop_left]]
  rw [greedyClose_simple item hne hcl]
  simp
  decide

/-! ## Claim theorems: C4, C5, C7 -/

/-- Claim C4: a reference to a registered entity whose owning directory
equals the current unit's directory yields a same-page anchor
`#anchorId`, while a differing owning directory yields
`{baseUrl}/{relativeOutputDir}/README.md#{anchorId}` when rendering
Markdown and `{baseUrl}/{relativeOutputDir}/#{anchorId}` when rendering
HTML (the relative output dir being `outDir` when truthy, else the
owning directory). -/
theorem claim_C4 (rt : RenderType) (url dir : String) (dt : EntityData) (d : String)
    (hd : dt.dir = some d) (hne : d ≠ "") :
    refLink rt url dir dt =
      if d = dir then "#" ++ dt.id
      else url ++ "/" ++ (if optTruthy dt.outDir then dt.outDir.getD "" else d) ++ "/"
        ++ (if rt = RenderType.markdown then "README.md" else "") ++ "#" ++ dt.id := by
  rw [refLink, hd]
  by_cases hq : d = dir
  · subst hq
    simp [optTruthy, hne]
  · simp [optTruthy, hne, hq]

theorem claim_C4_witness :
    (({ id := "x", dir := some "b" } : EntityData).dir = some "b" ∧ "b" ≠ "")
    ∧ refLink RenderType.markdown "u" "a" { id := "x", dir := some "b" } =
        (if "b" = "a" then "#" ++ ({ id := "x", dir := some "b" } : EntityData).id
         else "u" ++ "/"
           ++ (if optTruthy ({ id := "x", dir := some "b" } : EntityData).outDir
               then ({ id := "x", dir := some "b" } : EntityData).outDir.getD ""
               else "b") ++ "/"
           ++ (if RenderType.markdown = RenderType.markdown then "README.md" else "")
           ++ "#" ++ ({ id := "x", dir := some "b" } : EntityData).id) :=
  ⟨⟨rfl, by decide⟩, claim_C4 RenderType.markdown "u" "a" _ "b" rfl (by decide)⟩

/-- Claim C5 (amended): only the *literal* `Array.<Item>` generic-container
notation is rewritten to the bracket-suffix notation `Item[]`; shown here
for every word-character payload.  (Other containers are untouched by the
first replacement and only lose the character before `<` to the second —
see the counterexample.) -/
theorem claim_C5 (item : List Char) (hne : item ≠ [])
    (hw : ∀ c ∈ item, isWordChar c = true) :
    flattenType ⟨arrayAngle ++ (item ++ ['>'])⟩ = ⟨item ++ "[]".data⟩ := by
  have hcl : ∀ c ∈ item, c ≠ '\n' ∧ c ≠ '>' := by
    intro c hc
    have h := hw c hc
    constructor
    · intro he; subst he; exact absurd h (by decide)
    · intro he; subst he; exact absurd h (by decide)
  rw [flattenType]
  rw [show (⟨arrayAngle ++ (item ++ ['>'])⟩ : String).data = arrayAngle ++ (item ++ ['>'])
    from rfl]
  rw [replaceArrayOnce_array item hne hcl]
  have hlt : ∀ c ∈ item ++ "[]".data, c ≠ '<' := by
    intro c hc
    rcases List.mem_append.mp hc with hc | hc
    · have h := hw c hc
      intro he; subst he; exact absurd h (by decide)
    · rw [show "[]".data = ['[', ']'] from rfl] at hc
      simp at hc
      rcases hc with hc | hc <;> (subst hc; decide)
  rw [dotLt_no_lt _ hlt]

theorem claim_C5_witness :
    ("Item".data ≠ [] ∧ ∀ c ∈ "Item".data, isWordChar c = true)
    ∧ flattenType ⟨arrayAngle ++ ("Item".data ++ ['>'])⟩ = ⟨"Item".data ++ "[]".data⟩ :=
  ⟨⟨by decide, by decide⟩, claim_C5 "Item".data (by decide) (by decide)⟩

/-- Claim C5, counterexample to the spec's wording: the non-`Array`
container `Set.<Item>` is *not* rewritten to `Item[]`; the global `/.</g`
pass just deletes the dot before `<`. -/
theorem claim_C5_counterexample :
    flattenType "Set.<Item>" = "Set<Item>" ∧ flattenType "Set.<Item>" ≠ "Item[]" := by
  constructor <;> decide

/-- Claim C7: normalization records the `defaults` field as the string
form of the raw `defaultvalue` exactly when that field is present
(JS: not `undefined`) — falsy defaults such as `0`, `false` and `''` are
recorded, absent ones are not. -/
theorem claim_C7 (params : List RawParam) :
    (normalizeParams params).map (fun p => p.defaults)
      = params.map (fun param => param.defaultvalue.map JsValue.toStringJs) := by
  rw [normalizeParams, List.map_map]
  rfl

/-- Claim C10: a heading of level 3–6 processed while the page's heading
index is still empty (no level-2 heading registered yet) is emitted into
the HTML output with its id attribute and permalink, registers its id
into `_ids`, but is omitted entirely from the heading index. -/
theorem claim_C10 (tag s outer : String) (st : HtmlSt)
    (hh : st.headings = [])
    (htag : tag = "h3" ∨ tag = "h4" ∨ tag = "h5" ∨ tag = "h6") (hs : s ≠ "") :
    (getHtml (tnode tag s) outer st).headings = []
    ∧ (getHtml (tnode tag s) outer st).ids = setAdd st.ids (assignId st.ids (getId s))
    ∧ (getHtml (tnode tag s) outer st).output
      = st.output ++ ("<" ++ tag ++ attrString [("id", assignId st.ids (getId s))] ++ ">")
          ++ markdownToHtml s ++ permalinkHtml (assignId st.ids (getId s)) s
          ++ ("</" ++ tag ++ ">") := by
  rcases htag with h | h | h | h <;> subst h
  all_goals
    rw [getHtml.eq_def]
    simp only [tnode]
    rw [if_neg hs, hh]
    exact ⟨rfl, rfl, rfl⟩

theorem claim_C10_witness :
    ((⟨"", "", [], []⟩ : HtmlSt).headings = []
      ∧ (("h3" : String) = "h3" ∨ ("h3" : String) = "h4"
          ∨ ("h3" : String) = "h5" ∨ ("h3" : String) = "h6")
      ∧ ("Alpha" : String) ≠ "")
    ∧ ((getHtml (tnode "h3" "Alpha") "" ⟨"", "", [], []⟩).headings = []
      ∧ (getHtml (tnode "h3" "Alpha") "" ⟨"", "", [], []⟩).ids
          = setAdd (⟨"", "", [], []⟩ : HtmlSt).ids
              (assignId (⟨"", "", [], []⟩ : HtmlSt).ids (getId "Alpha"))
      ∧ (getHtml (tnode "h3" "Alpha") "" ⟨"", "", [], []⟩).output
          = (⟨"", "", [], []⟩ : HtmlSt).output
              ++ ("<" ++ "h3"
                  ++ attrString [("id", assignId (⟨"", "", [], []⟩ : HtmlSt).ids (getId "Alpha"))]
                  ++ ">")
              ++ markdownToHtml "Alpha"
              ++ permalinkHtml (assignId (⟨"", "", [], []⟩ : HtmlSt).ids (getId "Alpha")) "Alpha"
              ++ ("</" ++ "h3" ++ ">")) :=
  ⟨⟨rfl, Or.inl rfl, by decide⟩,
    claim_C10 "h3" "Alpha" "" ⟨"", "", [], []⟩ rfl (Or.inl rfl) (by decide)⟩

/-- A string is a prefix of itself. -/
theorem strStarts_refl (s : String) : strStarts s s = true := by
  rw [strStarts]
  induction s.data with
  | nil => simp [List.isPrefixOf]
  | cons c cs ih => simp [List.isPrefixOf, ih]

/-- Claim C8 (amended): on a lexicographically sorted chain of three
slugs, each a proper path-prefix of the next, the assembler nests *both*
deeper slugs directly under the first (outermost) slug — the grandchild
is claimed by the outermost ancestor, not nested one level below its
nearest prefix ancestor — and every slug appears exactly once. -/
theorem claim_C8 (s1 s2 s3 : String) (i1 i2 i3 : NavItem)
    (h21 : strStarts s2 s1 = true) (h31 : strStarts s3 s1 = true)
    (h32 : strStarts s3 s2 = true)
    (hn12 : strStarts s1 s2 = false) (hn13 : strStarts s1 s3 = false)
    (hn23 : strStarts s2 s3 = false)
    (hne12 : s1 ≠ s2) (hne13 : s1 ≠ s3) (hne23 : s2 ≠ s3)
    (hle12 : strLe s1 s2 = true) (hle23 : strLe s2 s3 = true) :
    buildNavigation [(s1, i1), (s2, i2), (s3, i3)] = [i1.withChildren [i2, i3]] := by
  have hsort : sortSlugs [s1, s2, s3] = [s1, s2, s3] := by
    rw [sortSlugs, sortSlugs, sortSlugs, sortSlugs]
    rw [insertSorted]
    rw [insertSorted, if_pos hle23]
    rw [insertSorted, if_pos hle12]
  rw [buildNavigation]
  rw [show ([(s1, i1), (s2, i2), (s3, i3)].map fun e => e.1) = [s1, s2, s3] from rfl]
  rw [hsort]
  simp [navLoop, navGet, List.find?, strStarts_refl, h21, h31, h32, hn12, hn13, hn23,
    hne12, hne13, hne23, Ne.symm hne12, Ne.symm hne13, Ne.symm hne23]

theorem claim_C8_witness :
    (strStarts "a/b/" "a/" = true ∧ strStarts "a/b/c/" "a/" = true
      ∧ strStarts "a/b/c/" "a/b/" = true ∧ strStarts "a/" "a/b/" = false
      ∧ strStarts "a/" "a/b/c/" = false ∧ strStarts "a/b/" "a/b/c/" = false
      ∧ ("a/" : String) ≠ "a/b/" ∧ ("a/" : String) ≠ "a/b/c/"
      ∧ ("a/b/" : String) ≠ "a/b/c/"
      ∧ strLe "a/" "a/b/" = true ∧ strLe "a/b/" "a/b/c/" = true)
    ∧ buildNavigation [("a/", navA), ("a/b/", navB), ("a/b/c/", navC)]
        = [navA.withChildren [navB, navC]] :=
  ⟨by decide,
    claim_C8 "a/" "a/b/" "a/b/c/" navA navB navC (by decide) (by decide) (by decide)
      (by decide) (by decide) (by decide) (by decide) (by decide) (by decide)
      (by decide) (by decide)⟩

/-- Claim C8, counterexample to the spec's wording: on the chained slugs
`a/`, `a/b/`, `a/b/c/` the deepest directory is nested directly under the
*outermost* prefix ancestor `a/`, not one level below its nearest prefix
ancestor `a/b/`. -/
theorem claim_C8_counterexample :
    buildNavigation [("a/", navA), ("a/b/", navB), ("a/b/c/", navC)]
      = [NavItem.mk "a" "A" "/a/" [navB, navC]]
    ∧ buildNavigation [("a/", navA), ("a/b/", navB), ("a/b/c/", navC)]
      ≠ [NavItem.mk "a" "A" "/a/" [NavItem.mk "a-b" "B" "/a/b/" [navC]]] := by
  constructor <;> decide

/-- Claim C9: the rendered result is not a deterministic function of the
unit's own inputs — the module-level `renderType.ref` (set by whichever
of the markdown/html renderers ran last) changes cross-directory link
targets, so the same unit renders to two different trees under the two
render types. -/
theorem claim_C9 :
    unitTypesF 2 (ctx9 RenderType.markdown) [] true [("Y", Kind.typedef)]
      = .ok (ty9 RenderType.markdown)
    ∧ unitTypesF 2 (ctx9 RenderType.html) [] true [("Y", Kind.typedef)]
      = .ok (ty9 RenderType.html)
    ∧ ty9 RenderType.markdown ≠ ty9 RenderType.html :=
  ⟨evU9 RenderType.markdown, evU9 RenderType.html, by decide⟩

/-- Claim C6 (amended): a failed file read for an example whose code body
starts with `.` is *not* local to that example — nothing on the path
catches the rejection, so `normalizeExamples` itself fails with the file
error instead of degrading that example to empty. -/
theorem claim_C6 (fs : String → String → Option String) (hl : String → String → String)
    (rt : RenderType) (dir tag ex : String) (rest : List String)
    (hdot : strStarts (parseExample ex).2.2.2 "." = true)
    (hfs : fs dir (parseExample ex).2.2.2 = none) :
    normalizeExamplesF fs hl rt (ex :: rest) dir tag = .error RErr.file := by
  rw [normalizeExamplesF]
  rw [bind_err_iff]
  left
  rw [normExLoop]
  rcases hpe : parseExample ex with ⟨title, desc, lang, code0⟩
  rw [hpe] at hdot hfs
  simp only [] at hdot hfs
  simp only []
  rw [if_pos hdot]
  rw [hfs]
  simp only []
  rw [errBind]

theorem claim_C6_witness :
    (strStarts (parseExample ".x").2.2.2 "." = true
      ∧ (fun (_ _ : String) => (none : Option String)) "d" (parseExample ".x").2.2.2 = none)
    ∧ normalizeExamplesF (fun _ _ => none) (fun _ c => c) RenderType.html [".x"] "d" "h4"
        = .error RErr.file :=
  ⟨⟨by decide, rfl⟩, claim_C6 (fun _ _ => none) (fun _ c => c) RenderType.html "d" "h4" ".x" []
    (by decide) rfl⟩

/-- Claim C6, counterexample to the spec's wording: with a failing file
read for its example, the whole `getTypeContent` run of the enclosing
entity returns the file error — the entity does not render without the
example. -/
theorem claim_C6_counterexample :
    gtcF 1 ctxE (some "E") eE Kind.typedef 2 ["E"] = .error RErr.file := evE

/-- Claim C2: the resolver terminates on every input — the embedding's
fuel-exhaustion branch is unreachable whenever the budget exceeds the
number of registered-but-unused type names, which is the JS termination
measure (`usedTypes` grows inside the finite registry) — and two
mutually-referencing same-directory types `A` and `B` each appear fully
rendered exactly once in the unit's `Types` block. -/
theorem claim_C2 :
    (∀ (fuel : Nat) (ctx : Ctx) (selfKey : Option String) (info : Entity) (kind : Kind)
       (depth : Nat) (used : List String),
       unusedCount ctx.docTypes used < fuel →
       gtcF fuel ctx selfKey info kind depth used ≠ .error RErr.fuel)
    ∧ (unitTypesF 2 ctxAB [] true [("A", Kind.typedef), ("B", Kind.typedef)]
        = .ok (Content.str (some "h2") none "Types" :: (secBlit ++ secAlit))
      ∧ countH3 "A" (Content.str (some "h2") none "Types" :: (secBlit ++ secAlit)) = 1
      ∧ countH3 "B" (Content.str (some "h2") none "Types" :: (secBlit ++ secAlit)) = 1) :=
  ⟨fun fuel ctx selfKey info kind depth used hu =>
      gtcF_fuel fuel ctx selfKey info kind depth used hu,
    evAB, by decide, by decide⟩

theorem claim_C2_witness :
    unusedCount ctxAB.docTypes ([] : List String) < 3
    ∧ gtcF 3 ctxAB (some "A") eA Kind.typedef 2 [] ≠ .error RErr.fuel :=
  ⟨by decide, claim_C2.1 3 ctxAB (some "A") eA Kind.typedef 2 [] (by decide)⟩

/-- Invariant of the per-directory unit loop: the used-types set grows and
the accumulated types block extends by a delta satisfying the
materialize-once invariant, provided the registry maps each key to an
entity of that name (which is how `getDocs` builds it). -/
theorem unitItemsF_inv (fuel : Nat) (ctx : Ctx) (dfns : List (String × Entity)) (single : Bool)
    (hreg : ∀ k e, lookupType ctx.docTypes k = some e → e.data.name = k) :
    ∀ (items : List (String × Kind)) (types0 fns0 : List Content) (uT0 uF0 : List String)
      (types fns : List Content) (uT uF : List String),
      unitItemsF fuel ctx dfns single items types0 fns0 uT0 uF0 = .ok (types, fns, uT, uF) →
      uT0 ⊆ uT ∧ ∃ delta, types = types0 ++ delta ∧ DeltaInv uT0 uT delta := by
  intro items
  induction items with
  | nil =>
    intro types0 fns0 uT0 uF0 types fns uT uF h
    rw [unitItemsF] at h
    simp only [Except.ok.injEq, Prod.mk.injEq] at h
    obtain ⟨h1, h2, h3, h4⟩ := h
    subst h1; subst h3
    exact ⟨fun a ha => ha, [], by simp, deltaInv_nil _ _⟩
  | cons item rest ih =>
    obtain ⟨name, kind⟩ := item
    intro types0 fns0 uT0 uF0 types fns uT uF h
    rw [unitItemsF] at h
    by_cases hk : kind = Kind.typedef
    · rw [if_pos hk] at h
      revert h
      cases hlk : lookupType ctx.docTypes name with
      | none =>
        intro h
        simp only [] at h
        exact ih _ _ _ _ _ _ _ _ h
      | some info =>
        intro h
        simp only [] at h
        by_cases hmem : name ∈ uT0
        · rw [if_pos hmem] at h
          exact ih _ _ _ _ _ _ _ _ h
        · rw [if_neg hmem] at h
          rw [bind_ok_iff] at h
          obtain ⟨⟨sec, d, u⟩, hg, h⟩ := h
          simp only [] at h
          obtain ⟨hs, hd, hcnt⟩ := gtcF_inv fuel ctx (some name) info Kind.typedef 2 _ _ _ _ hg
          obtain ⟨hs2, delta, hT, hDI⟩ := ih _ _ _ _ _ _ _ _ h
          have hsec := hcnt rfl rfl
          rw [hreg name info hlk] at hsec
          refine ⟨fun a ha => hs2 (hs (by simp [ha])), d ++ sec ++ delta, ?_, ?_⟩
          · rw [hT]
            simp
          · exact deltaInv_materialize hmem hs hd hsec hs2 hDI
    · rw [if_neg hk] at h
      by_cases hf : kind = Kind.function
      · rw [if_pos hf] at h
        revert h
        cases hlk : lookupType dfns name with
        | none =>
          intro h
          simp only [] at h
          exact ih _ _ _ _ _ _ _ _ h
        | some info =>
          intro h
          simp only [] at h
          by_cases hmem : name ∈ uF0
          · rw [if_pos hmem] at h
            exact ih _ _ _ _ _ _ _ _ h
          · rw [if_neg hmem] at h
            rw [bind_ok_iff] at h
            obtain ⟨⟨sec, d, u⟩, hg, h⟩ := h
            simp only [] at h
            obtain ⟨hs, hd, -⟩ := gtcF_inv fuel ctx none info Kind.function _ _ _ _ _ hg
            obtain ⟨hs2, delta, hT, hDI⟩ := ih _ _ _ _ _ _ _ _ h
            refine ⟨fun a ha => hs2 (hs ha), d ++ delta, ?_, ?_⟩
            · rw [hT]
              simp
            · exact hd.append hDI hs hs2
      · rw [if_neg hf] at h
        exact ih _ _ _ _ _ _ _ _ h

/-- Claim C1 (amended): within one output unit the `Types` block carries
each entity's content section at most once (the used set keyed by entity
name prevents re-materialization), but an entity whose owning directory
differs from the unit's is *never* materialized: its `getTypeContent`
run returns no content at all, so cross-directory entities referenced in
the unit get links only. -/
theorem claim_C1 :
    (∀ (fuel : Nat) (ctx : Ctx) (dfns : List (String × Entity)) (single : Bool)
       (items : List (String × Kind)) (ty : List Content),
       (∀ k e, lookupType ctx.docTypes k = some e → e.data.name = k) →
       unitTypesF fuel ctx dfns single items = .ok ty →
       ∀ nm, countH3 nm ty ≤ 1)
    ∧ (∀ (fuel : Nat) (ctx : Ctx) (selfKey : Option String) (info : Entity) (depth : Nat)
         (used : List String),
         info.data.dir ≠ some ctx.dir →
         gtcF fuel ctx selfKey info Kind.typedef depth used = .ok ([], [], used)) := by
  constructor
  · intro fuel ctx dfns single items ty hreg h nm
    rw [unitTypesF] at h
    rw [bind_ok_iff] at h
    obtain ⟨⟨types, fns, uT, uF⟩, hi, h⟩ := h
    simp only [Except.ok.injEq] at h
    obtain ⟨-, delta, hT, hDI⟩ := unitItemsF_inv fuel ctx dfns single hreg items
      [] [] [] [] types fns uT uF hi
    have hb := hDI.2.1 nm
    rw [List.nil_append] at hT
    subst h
    rw [hT]
    by_cases he : delta.isEmpty = true
    · rw [if_pos he]
      rw [countH3_nil]
      omega
    · rw [if_neg he]
      unfold countH3
      rw [List.countP_cons]
      rw [show (isH3Named nm (Content.str (some "h2") none "Types")) = false from by
        simp [isH3Named]]
      simp only [Bool.false_eq_true, if_false]
      unfold countH3 at hb
      omega
  · intro fuel ctx selfKey info depth used hdir
    rw [gtcF.eq_def]
    show gtcBody ctx _ _ selfKey (effInfo ctx info Kind.typedef) Kind.typedef depth used = _
    rw [effInfo_typedef]
    rw [gtcBody]
    rw [if_pos ⟨rfl, hdir⟩]

theorem claim_C1_witness :
    eX.data.dir ≠ some (ctx9 RenderType.markdown).dir
    ∧ gtcF 5 (ctx9 RenderType.markdown) (some "X") eX Kind.typedef 2 ["q"]
        = .ok ([], [], ["q"]) :=
  ⟨by decide, claim_C1.2 5 (ctx9 RenderType.markdown) (some "X") eX 2 ["q"] (by decide)⟩

/-- Claim C1, counterexample to the spec's wording: in the
cross-directory unit the entity `X` is referenced twice, yet its content
section is never appended to the unit's `Types` block — it appears zero
times, not exactly once. -/
theorem claim_C1_counterexample :
    eY.data.type = ["X", "X"]
    ∧ unitTypesF 2 (ctx9 RenderType.markdown) [] true [("Y", Kind.typedef)]
        = .ok (ty9 RenderType.markdown)
    ∧ countH3 "X" (ty9 RenderType.markdown) = 0 :=
  ⟨rfl, evU9 RenderType.markdown, by decide⟩

/-! ## Lemmas about the id dedup suffixes (claim C3) -/

theorem digitChar_inj {a b : Nat} (ha : a < 10) (hb : b < 10)
    (h : digitChar a = digitChar b) : a = b := by
  interval_cases a <;> interval_cases b <;> revert h <;> decide

theorem natDecGo_eq_digits : ∀ (fuel n : Nat), n < fuel →
    natDecGo fuel n = (Nat.digits 10 n).map digitChar := by
  intro fuel
  induction fuel with
  | zero => intro n h; omega
  | succ f ih =>
    intro n h
    cases n with
    | zero =>
      rw [natDecGo]
      simp
    | succ m =>
      rw [natDecGo]
      rw [Nat.digits_def' (by norm_num : (1 : Nat) < 10) (Nat.succ_pos m)]
      rw [List.map_cons]
      congr 1
      refine ih _ ?_
      have := Nat.div_lt_self (Nat.succ_pos m) (by norm_num : 1 < 10)
      omega

theorem digits_map_inj : ∀ (l1 l2 : List Nat), (∀ x ∈ l1, x < 10) → (∀ x ∈ l2, x < 10) →
    l1.map digitChar = l2.map digitChar → l1 = l2
  | [], [], _, _, _ => rfl
  | [], _ :: _, _, _, h => by simp at h
  | _ :: _, [], _, _, h => by simp at h
  | a :: as, b :: bs, h1, h2, h => by
    simp only [List.map_cons, List.cons.injEq] at h
    have hab := digitChar_inj (h1 a (by simp)) (h2 b (by simp)) h.1
    rw [hab, digits_map_inj as bs (fun x hx => h1 x (by simp [hx]))
      (fun x hx => h2 x (by simp [hx])) h.2]

/-- The decimal rendering is injective. -/
theorem natDec_inj {n m : Nat} (h : natDec n = natDec m) : n = m := by
  have key : ∀ j : Nat, j ≠ 0 → natDec j ≠ "0" := by
    intro j hj hz
    have hd : (natDecGo (j + 1) j).reverse = ("0" : String).data := by
      unfold natDec at hz
      rw [if_neg hj] at hz
      exact congrArg String.data hz
    rw [natDecGo_eq_digits (j + 1) j (by omega)] at hd
    have hrev := congrArg List.reverse hd
    simp only [List.reverse_reverse] at hrev
    have h0 : (Nat.digits 10 j).map digitChar = (([0] : List Nat)).map digitChar := by
      rw [hrev]
      decide
    have hdig := digits_map_inj _ _ (fun x hx => Nat.digits_lt_base (by norm_num) hx)
      (by intro x hx; simp at hx; omega) h0
    have he := Nat.ofDigits_digits 10 j
    rw [hdig] at he
    simp [Nat.ofDigits] at he
    exact hj he.symm
  by_cases hn : n = 0 <;> by_cases hm : m = 0
  · rw [hn, hm]
  · exfalso
    apply key m hm
    rw [← h, hn]
    rfl
  · exfalso
    apply key n hn
    rw [h, hm]
    rfl
  · unfold natDec at h
    rw [if_neg hn, if_neg hm] at h
    have hd : (natDecGo (n + 1) n).reverse = (natDecGo (m + 1) m).reverse :=
      congrArg String.data h
    have h3 := congrArg List.reverse hd
    simp only [List.reverse_reverse] at h3
    rw [natDecGo_eq_digits _ _ (by omega), natDecGo_eq_digits _ _ (by omega)] at h3
    have h4 := digits_map_inj _ _ (fun x hx => Nat.digits_lt_base (by norm_num) hx)
      (fun x hx => Nat.digits_lt_base (by norm_num) hx) h3
    have e1 := Nat.ofDigits_digits 10 n
    have e2 := Nat.ofDigits_digits 10 m
    rw [h4, e2] at e1
    exact e1.symm

/-- The suffixed id candidates are pairwise distinct. -/
theorem newIdCandidates_nodup (ids : List String) (id0 : String) :
    (newIdCandidates ids id0).Nodup := by
  rw [newIdCandidates]
  refine List.Nodup.map ?_ (List.nodup_range _)
  intro a b hab
  have hd := congrArg String.data hab
  rw [String.data_append, String.data_append, String.data_append, String.data_append] at hd
  have h2 := List.append_cancel_left hd
  have h3 : natDec (a + 1) = natDec (b + 1) := String.ext h2
  have := natDec_inj h3
  omega

/-- Pigeonhole: among `ids.length + 1` pairwise-distinct candidates, one
is outside `ids`. -/
theorem exists_free_candidate (ids : List String) (id0 : String) :
    ∃ c ∈ newIdCandidates ids id0, c ∉ ids := by
  by_contra hall
  push_neg at hall
  have hsub : (newIdCandidates ids id0).toFinset ⊆ ids.toFinset := by
    intro x hx
    rw [List.mem_toFinset] at hx ⊢
    exact hall x hx
  have hc1 : (newIdCandidates ids id0).toFinset.card = ids.length + 1 := by
    rw [List.toFinset_card_of_nodup (newIdCandidates_nodup ids id0)]
    rw [newIdCandidates]
    simp
  have hc2 : ids.toFinset.card ≤ ids.length := List.toFinset_card_le ids
  have := Finset.card_le_card hsub
  omega

/-- The assigned id is always fresh with respect to the page's id set. -/
theorem assignId_not_mem (ids : List String) (id0 : String) : assignId ids id0 ∉ ids := by
  rw [assignId]
  by_cases h0 : id0 ∈ ids
  · rw [if_pos h0]
    cases hf : (newIdCandidates ids id0).find? (fun c => decide (¬ c ∈ ids)) with
    | none =>
      exfalso
      obtain ⟨c, hc, hnc⟩ := exists_free_candidate ids id0
      have := List.find?_eq_none.mp hf c hc
      simp at this
      exact hnc this
    | some c =>
      simp only []
      have := List.find?_some hf
      simpa using this
  · rw [if_neg h0]
    exact h0

/-- `find?` over a mapped range returns the first hit. -/
theorem find_range_first {α : Type} (p : α → Bool) : ∀ (m : Nat) (f : Nat → α) (c : α),
    ((List.range m).map f).find? p = some c →
    ∃ k, k < m ∧ c = f k ∧ p (f k) = true ∧ ∀ j < k, p (f j) = false := by
  intro m
  induction m with
  | zero =>
    intro f c h
    simp at h
  | succ mm ih =>
    intro f c h
    rw [List.range_succ_eq_map, List.map_cons] at h
    by_cases h0 : p (f 0) = true
    · rw [List.find?_cons_of_pos _ h0] at h
      injection h with h
      refine ⟨0, by omega, h.symm, h ▸ h0, fun j hj => absurd hj (by omega)⟩
    · rw [Bool.not_eq_true] at h0
      rw [List.find?_cons_of_neg _ (by simp [h0])] at h
      rw [List.map_map] at h
      obtain ⟨k, hk, hc, hp, hall⟩ := ih (f ∘ Nat.succ) c h
      refine ⟨k + 1, by omega, hc, hp, ?_⟩
      intro j hj
      cases j with
      | zero => exact h0
      | succ jj => exact hall jj (by omega)

/-- Claim C3 (amended): for headings other than `h1`, the assigned id is
the slug when free, otherwise the first free suffixed candidate
`slug-1`, `slug-2`, … (every suffix below the chosen one is taken); the
assigned id is always fresh with respect to the page's registered id set,
and every such heading registers its id there.  (An `h1` sets the page
title instead and never registers its id, so an `h1` id can be duplicated
by a later heading — see the counterexample.) -/
theorem claim_C3 :
    (∀ (ids : List String) (id0 : String), id0 ∉ ids → assignId ids id0 = id0)
    ∧ (∀ (ids : List String) (id0 : String), id0 ∈ ids →
        ∃ k, assignId ids id0 = id0 ++ "-" ++ natDec (k + 1)
          ∧ ∀ j < k, (id0 ++ "-" ++ natDec (j + 1)) ∈ ids)
    ∧ (∀ (ids : List String) (id0 : String), assignId ids id0 ∉ ids)
    ∧ (∀ (tag s outer : String) (st : HtmlSt),
        (tag = "h2" ∨ tag = "h3" ∨ tag = "h4" ∨ tag = "h5" ∨ tag = "h6") → s ≠ "" →
        (getHtml (tnode tag s) outer st).ids = st.ids ++ [assignId st.ids (getId s)]) := by
  refine ⟨?_, ?_, assignId_not_mem, ?_⟩
  · intro ids id0 h0
    rw [assignId, if_neg h0]
  · intro ids id0 h0
    rw [assignId, if_pos h0]
    cases hf : (newIdCandidates ids id0).find? (fun c => decide (¬ c ∈ ids)) with
    | none =>
      exfalso
      obtain ⟨c, hc, hnc⟩ := exists_free_candidate ids id0
      have := List.find?_eq_none.mp hf c hc
      simp at this
      exact hnc this
    | some c =>
      simp only []
      rw [newIdCandidates] at hf
      obtain ⟨k, hk, hc, hp, hall⟩ := find_range_first _ _ _ c hf
      refine ⟨k, by rw [hc], ?_⟩
      intro j hj
      have hj2 := hall j hj
      simp at hj2
      exact hj2
  · intro tag s outer st htag hs
    rcases htag with h | h | h | h | h <;> subst h
    all_goals
      rw [getHtml.eq_def]
      simp only [tnode]
      rw [if_neg hs]
      show setAdd st.ids (assignId st.ids (getId s)) = _
      rw [setAdd, if_neg (assignId_not_mem st.ids (getId s))]

theorem claim_C3_witness :
    (("foo" : String) ∉ (["bar"] : List String) ∧ assignId ["bar"] "foo" = "foo")
    ∧ (("foo" : String) ∈ (["foo", "foo-1"] : List String)
      ∧ ∃ k, assignId ["foo", "foo-1"] "foo" = "foo" ++ "-" ++ natDec (k + 1)
          ∧ ∀ j < k, ("foo" ++ "-" ++ natDec (j + 1)) ∈ (["foo", "foo-1"] : List String)) :=
  ⟨⟨by decide, claim_C3.1 ["bar"] "foo" (by decide)⟩,
    by decide, claim_C3.2.1 ["foo", "foo-1"] "foo" (by decide)⟩

set_option maxRecDepth 4000 in
/-- Claim C3, counterexample to the spec's wording: an `h1` id is never
registered, so a page rendering `[h1 "Foo", h2 "Foo"]` emits the id
`foo` twice — heading ids on one page are not unique. -/
theorem claim_C3_counterexample :
    countOcc (" id=\"foo\"".data)
      (getHtmlTop (Content.arr none none
        [tnode "h1" "Foo", tnode "h2" "Foo"])).output.data = 2 := by
  rw [pageFoo]
  decide

end FormationDocs
